import Mathlib

/-!
# Verification of the CPS transformation kernel (`src/cont_expr.rs`)

A shallow embedding of the continuation-passing-style transformation of
`cont_expr.rs`.  Binding is represented in the locally-nameless style that the
`moniker` crate implements: a scope stores its (display-only) pattern binder
together with a body in which bound occurrences are de Bruijn scope offsets;
`Scope::new` closes free occurrences of the binder and `unbind` reopens them at
a freshly generated identifier.  The global fresh-name counter of
`FreeVar::fresh_named` is threaded explicitly as a `Nat` state.
-/

set_option maxHeartbeats 1000000
set_option linter.unnecessarySeqFocus false
set_option linter.unusedVariables false

namespace ContExpr

/-- A free-variable identity: a generation-unique numeric identity together
with a textual hint (`moniker::FreeVar`).  Identifiers compare equal by
identity, never by hint. -/
structure FreeVar where
  id : Nat
  hint : String
deriving DecidableEq, Repr

/-- `FreeVar::fresh_named`: the process-wide monotonic counter, threaded
explicitly.  Returns an identifier distinct from every one produced before. -/
def fresh (hint : String) (c : Nat) : FreeVar × Nat :=
  (⟨c, hint⟩, c + 1)

/-- A variable occurrence (`moniker::Var`): free, or bound as a de Bruijn
scope offset into an enclosing scope (every pattern here is a single binder,
so the binder index is always 0 and is omitted). -/
inductive Var where
  | free (v : FreeVar)
  | bound (n : Nat)
deriving DecidableEq, Repr

/-- Modelled from the spec: `literals.rs` is not under `src/`; the spec only
requires an opaque literal type with equality by value and no binders. -/
def Literal := Nat
deriving DecidableEq, Repr

/-- Modelled from the spec: the surface grammar of `expr.rs` is not under
`src/`.  Variable, opaque literal, single-parameter lambda
(`Lam(Scope⟨binder, body⟩)`, stored with the body closed over the binder),
and application. -/
inductive Expr where
  | lam (p : FreeVar) (b : Expr)
  | var (v : Var)
  | lit (l : Literal)
  | app (f e : Expr)
deriving DecidableEq, Repr

/-- Closing a surface body (`Scope::new`): free occurrences of `x` at scope
depth `j` become bound offsets `j`; descending under a lambda increments the
depth. -/
def closeE (j : Nat) (x : FreeVar) : Expr → Expr
  | .lam p b => .lam p (closeE (j+1) x b)
  | .var (.free v) => if v.id = x.id then .var (.bound j) else .var (.free v)
  | .var (.bound n) => .var (.bound n)
  | .lit l => .lit l
  | .app f e => .app (closeE j x f) (closeE j x e)

/-- Opening a surface body (`unbind`): bound offsets `j` become the freshly
chosen free variable `x`. -/
def openE (j : Nat) (x : FreeVar) : Expr → Expr
  | .lam p b => .lam p (openE (j+1) x b)
  | .var (.bound n) => if n = j then .var (.free x) else .var (.bound n)
  | .var (.free v) => .var (.free v)
  | .lit l => .lit l
  | .app f e => .app (openE j x f) (openE j x e)

/-- Node count of a surface expression. -/
def sizeE : Expr → Nat
  | .lam _ b => sizeE b + 1
  | .var _ => 1
  | .lit _ => 1
  | .app f e => sizeE f + sizeE e + 1

mutual

/-- CPS user expressions (`UExpr` in `cont_expr.rs`): a user lambda
`Lam(Scope⟨value-binder, Scope⟨cont-binder, Call⟩⟩)` stored with both binders
closed in the call body (the continuation binder at offset 0, the value binder
at offset 1), a variable, or a literal. -/
inductive UExpr where
  | lam (p k : FreeVar) (b : CCall)
  | var (v : Var)
  | lit (l : Literal)
deriving DecidableEq

/-- CPS continuation expressions (`KExpr` in `cont_expr.rs`): a continuation
lambda `Lam(Scope⟨value-binder, Call⟩)` stored with the binder closed in the
body, a variable, or a literal. -/
inductive KExpr where
  | lam (p : FreeVar) (b : CCall)
  | var (v : Var)
  | lit (l : Literal)
deriving DecidableEq

/-- CPS calls (`CCall` in `cont_expr.rs`): a user call `UCall(U, U, K)` or a
continuation call `KCall(K, U)`. -/
inductive CCall where
  | ucall (f v : UExpr) (c : KExpr)
  | kcall (f : KExpr) (v : UExpr)
deriving DecidableEq

end

mutual

/-- `Scope::new` closing descending through a CPS user expression: a user
lambda adds two scope levels. -/
def closeU (j : Nat) (x : FreeVar) : UExpr → UExpr
  | .lam p k b => .lam p k (closeC (j+2) x b)
  | .var (.free v) => if v.id = x.id then .var (.bound j) else .var (.free v)
  | .var (.bound n) => .var (.bound n)
  | .lit l => .lit l

/-- `Scope::new` closing descending through a CPS continuation expression: a
continuation lambda adds one scope level. -/
def closeK (j : Nat) (x : FreeVar) : KExpr → KExpr
  | .lam p b => .lam p (closeC (j+1) x b)
  | .var (.free v) => if v.id = x.id then .var (.bound j) else .var (.free v)
  | .var (.bound n) => .var (.bound n)
  | .lit l => .lit l

/-- `Scope::new` closing descending through a CPS call. -/
def closeC (j : Nat) (x : FreeVar) : CCall → CCall
  | .ucall f v c => .ucall (closeU j x f) (closeU j x v) (closeK j x c)
  | .kcall f v => .kcall (closeK j x f) (closeU j x v)

end

/-- `KExpr::Lam(Scope::new(Binder(x), body))`: build a continuation lambda,
closing `x` in its body. -/
def mkKLam (x : FreeVar) (b : CCall) : KExpr :=
  .lam x (closeC 0 x b)

/-- `UExpr::Lam(Scope::new(p, Scope::new(Binder(k), body)))`: build a user
lambda; the inner scope closes `k` at offset 0, the outer scope closes `p`
through the inner scope, hence at offset 1. -/
def mkULam (p k : FreeVar) (b : CCall) : UExpr :=
  .lam p k (closeC 1 p (closeC 0 k b))

mutual

/-- `t_k` of `cont_expr.rs`: translate a surface expression against a reified
continuation expression `k`.  A trivial expression becomes `KCall(k, M(e))`;
an application allocates `rv`, `f`, `e` in the source's order, reifies the
ambient continuation as `cont = λrv. KCall(k, rv)`, translates the argument
(Rust evaluates the continuation argument of the outer recursive call first),
and then the function.  The `Option` propagates `m`'s `unreachable!()`. -/
def t_k : Expr → KExpr → Nat → Option (CCall × Nat)
  | .lam p b, k, c => (m (.lam p b) c).map fun uc => (.kcall k uc.1, uc.2)
  | .var v, k, c => (m (.var v) c).map fun uc => (.kcall k uc.1, uc.2)
  | .lit l, k, c => (m (.lit l) c).map fun uc => (.kcall k uc.1, uc.2)
  | .app f e, k, c =>
    let rvc := fresh "rv" c
    let cont := mkKLam rvc.1 (.kcall k (.var (.free rvc.1)))
    let fvc := fresh "f" rvc.2
    let evc := fresh "e" fvc.2
    match t_k e (mkKLam evc.1
        (.ucall (.var (.free fvc.1)) (.var (.free evc.1)) cont)) evc.2 with
    | none => none
    | some ic => t_k f (mkKLam fvc.1 ic.1) ic.2
termination_by e _ _ => (sizeE e, 2)
decreasing_by
  all_goals simp [sizeE, Prod.lex_iff]
  all_goals omega

/-- `t_c` of `cont_expr.rs`: translate a surface expression against a
continuation *variable* `cv`.  As `t_k`, but the ambient continuation is the
variable itself — no `rv` reification lambda is built. -/
def t_c : Expr → FreeVar → Nat → Option (CCall × Nat)
  | .lam p b, cv, c =>
    (m (.lam p b) c).map fun uc => (.kcall (.var (.free cv)) uc.1, uc.2)
  | .var v, cv, c =>
    (m (.var v) c).map fun uc => (.kcall (.var (.free cv)) uc.1, uc.2)
  | .lit l, cv, c =>
    (m (.lit l) c).map fun uc => (.kcall (.var (.free cv)) uc.1, uc.2)
  | .app f e, cv, c =>
    let fvc := fresh "f" c
    let evc := fresh "e" fvc.2
    match t_k e (mkKLam evc.1
        (.ucall (.var (.free fvc.1)) (.var (.free evc.1))
          (.var (.free cv)))) evc.2 with
    | none => none
    | some ic => t_k f (mkKLam fvc.1 ic.1) ic.2
termination_by e _ _ => (sizeE e, 1)
decreasing_by
  all_goals simp [sizeE, Prod.lex_iff]
  all_goals omega

/-- `m` of `cont_expr.rs`: atomic translation.  A lambda is unbound (its
binder freshened, keeping the hint, and the body reopened), a fresh
continuation identifier `k` is allocated, the body is translated by `t_c`,
and the result is rebound as a two-scope user lambda.  The `App` arm is the
source's `unreachable!()`, modelled as `none`. -/
def m : Expr → Nat → Option (UExpr × Nat)
  | .lam p b, c =>
    let pc := fresh p.hint c
    let t := openE 0 pc.1 b
    let kc := fresh "k" pc.2
    (t_c t kc.1 kc.2).map fun bc => (mkULam pc.1 kc.1 bc.1, bc.2)
  | .var v, c => some (.var v, c)
  | .lit l, c => some (.lit l, c)
  | .app _ _, _ => none
termination_by e _ => (sizeE e, 0)
decreasing_by
  all_goals
    have hsz : ∀ (e : Expr) (j : Nat) (x : FreeVar),
        sizeE (openE j x e) = sizeE e := by
      intro e
      induction e with
      | lam p b ih =>
        intro j x
        simp [openE, sizeE, ih]
      | var v =>
        intro j x
        cases v with
        | free v => simp [openE, sizeE]
        | bound n => by_cases h : n = j <;> simp [openE, sizeE, h]
      | lit l =>
        intro j x
        simp [openE, sizeE]
      | app f e ihf ihe =>
        intro j x
        simp [openE, sizeE, ihf, ihe]
    simp [sizeE, hsz, Prod.lex_iff]

end

/-- Erase the display-only hint of an identifier; its identity remains. -/
def stripFV (v : FreeVar) : FreeVar := ⟨v.id, ""⟩

/-- Erase display-only data of a variable occurrence.  The `BoundTerm`
equality of moniker compares free variables by identity and bound variables by
scope offset only. -/
def stripVar : Var → Var
  | .free v => .free (stripFV v)
  | .bound n => .bound n

mutual

/-- Canonical representative of the alpha-equivalence class of a user
expression: binder patterns (which moniker's `Binder::pattern_eq` ignores) and
identifier hints are erased; de Bruijn structure and free identities remain. -/
def stripU : UExpr → UExpr
  | .lam _ _ b => .lam ⟨0, ""⟩ ⟨0, ""⟩ (stripC b)
  | .var v => .var (stripVar v)
  | .lit l => .lit l

/-- Canonical representative of the alpha-equivalence class of a continuation
expression. -/
def stripK : KExpr → KExpr
  | .lam _ b => .lam ⟨0, ""⟩ (stripC b)
  | .var v => .var (stripVar v)
  | .lit l => .lit l

/-- Canonical representative of the alpha-equivalence class of a call. -/
def stripC : CCall → CCall
  | .ucall f v c => .ucall (stripU f) (stripU v) (stripK c)
  | .kcall f v => .kcall (stripK f) (stripU v)

end

/-- Canonical representative of the alpha-equivalence class of a surface
expression. -/
def stripE : Expr → Expr
  | .lam _ b => .lam ⟨0, ""⟩ (stripE b)
  | .var v => .var (stripVar v)
  | .lit l => .lit l
  | .app f e => .app (stripE f) (stripE e)

/-- Alpha-equivalence of CPS calls (`Scope` equality of the moniker
representation, i.e. the derived `BoundTerm` equality of `cont_expr.rs`). -/
def aeqC (a b : CCall) : Prop := stripC a = stripC b

/-- Alpha-equivalence of user expressions. -/
def aeqU (a b : UExpr) : Prop := stripU a = stripU b

/-- Alpha-equivalence of continuation expressions. -/
def aeqK (a b : KExpr) : Prop := stripK a = stripK b

/-- Alpha-equivalence of surface expressions. -/
def aeqE (a b : Expr) : Prop := stripE a = stripE b

instance (a b : CCall) : Decidable (aeqC a b) :=
  inferInstanceAs (Decidable (stripC a = stripC b))

instance (a b : UExpr) : Decidable (aeqU a b) :=
  inferInstanceAs (Decidable (stripU a = stripU b))

instance (a b : KExpr) : Decidable (aeqK a b) :=
  inferInstanceAs (Decidable (stripK a = stripK b))

instance (a b : Expr) : Decidable (aeqE a b) :=
  inferInstanceAs (Decidable (stripE a = stripE b))

/-- Free identifier occurrences of a variable. -/
def fvVar : Var → Finset Nat
  | .free v => {v.id}
  | .bound _ => ∅

mutual

/-- Free identifiers of a user expression.  Lambda bodies are stored closed,
so their bound occurrences are offsets, not identifiers. -/
def fvU : UExpr → Finset Nat
  | .lam _ _ b => fvC b
  | .var v => fvVar v
  | .lit _ => ∅

/-- Free identifiers of a continuation expression. -/
def fvK : KExpr → Finset Nat
  | .lam _ b => fvC b
  | .var v => fvVar v
  | .lit _ => ∅

/-- Free identifiers of a call. -/
def fvC : CCall → Finset Nat
  | .ucall f v c => fvU f ∪ fvU v ∪ fvK c
  | .kcall f v => fvK f ∪ fvU v

end

/-- Free identifiers of a surface expression. -/
def fvE : Expr → Finset Nat
  | .lam _ b => fvE b
  | .var v => fvVar v
  | .lit _ => ∅
  | .app f e => fvE f ∪ fvE e

mutual

/-- Node count of a user expression. -/
def sizeU : UExpr → Nat
  | .lam _ _ b => sizeC b + 1
  | .var _ => 1
  | .lit _ => 1

/-- Node count of a continuation expression. -/
def sizeK : KExpr → Nat
  | .lam _ b => sizeC b + 1
  | .var _ => 1
  | .lit _ => 1

/-- Node count of a call. -/
def sizeC : CCall → Nat
  | .ucall f v c => sizeU f + sizeU v + sizeK c + 1
  | .kcall f v => sizeK f + sizeU v + 1

end

/-- Rename the identity of an identifier. -/
def mapFV (r : Nat → Nat) (v : FreeVar) : FreeVar := ⟨r v.id, v.hint⟩

/-- Rename the free identity of a variable occurrence. -/
def mapVar (r : Nat → Nat) : Var → Var
  | .free v => .free (mapFV r v)
  | .bound n => .bound n

mutual

/-- Rename every identifier (free occurrences and binder patterns) of a user
expression. -/
def mapU (r : Nat → Nat) : UExpr → UExpr
  | .lam p k b => .lam (mapFV r p) (mapFV r k) (mapC r b)
  | .var v => .var (mapVar r v)
  | .lit l => .lit l

/-- Rename every identifier of a continuation expression. -/
def mapK (r : Nat → Nat) : KExpr → KExpr
  | .lam p b => .lam (mapFV r p) (mapC r b)
  | .var v => .var (mapVar r v)
  | .lit l => .lit l

/-- Rename every identifier of a call. -/
def mapC (r : Nat → Nat) : CCall → CCall
  | .ucall f v c => .ucall (mapU r f) (mapU r v) (mapK r c)
  | .kcall f v => .kcall (mapK r f) (mapU r v)

end

/-- Rename every identifier of a surface expression. -/
def mapE (r : Nat → Nat) : Expr → Expr
  | .lam p b => .lam (mapFV r p) (mapE r b)
  | .var v => .var (mapVar r v)
  | .lit l => .lit l
  | .app f e => .app (mapE r f) (mapE r e)

/-- Modelled from the spec: `flat_expr.rs` is not under `src/`.  The flat
lowering target collapses `U`/`K`/`Call` into one sort: one-binder lambdas
(from `K`), two-binder lambdas (from `U`, stored closed exactly as the CPS
scopes are), one-argument calls (from `KCall`) and two-argument calls (from
`UCall`). -/
inductive FExpr where
  | lamOne (p : FreeVar) (b : FExpr)
  | lamTwo (p k : FreeVar) (b : FExpr)
  | var (v : Var)
  | lit (l : Literal)
  | callOne (f v : FExpr)
  | callTwo (f v c : FExpr)
deriving DecidableEq, Repr

mutual

/-- `UExpr::into_fexpr`: destructure the two scopes and rebuild them as a
`LamTwo` with the same patterns and the lowered body; variables and literals
are re-tagged. -/
def UExpr.into_fexpr : UExpr → FExpr
  | .lam p k b => .lamTwo p k b.into_fexpr
  | .var v => .var v
  | .lit l => .lit l

/-- `KExpr::into_fexpr`: rebuild the scope as a `LamOne` with the same
pattern and the lowered body. -/
def KExpr.into_fexpr : KExpr → FExpr
  | .lam p b => .lamOne p b.into_fexpr
  | .var v => .var v
  | .lit l => .lit l

/-- `CCall::into_fexpr`: `UCall` to `CallTwo`, `KCall` to `CallOne`. -/
def CCall.into_fexpr : CCall → FExpr
  | .ucall f v c => .callTwo f.into_fexpr v.into_fexpr c.into_fexpr
  | .kcall f v => .callOne f.into_fexpr v.into_fexpr

end

/-- Canonical representative of the alpha-equivalence class of a flat
expression. -/
def stripF : FExpr → FExpr
  | .lamOne _ b => .lamOne ⟨0, ""⟩ (stripF b)
  | .lamTwo _ _ b => .lamTwo ⟨0, ""⟩ ⟨0, ""⟩ (stripF b)
  | .var v => .var (stripVar v)
  | .lit l => .lit l
  | .callOne f v => .callOne (stripF f) (stripF v)
  | .callTwo f v c => .callTwo (stripF f) (stripF v) (stripF c)

/-- Alpha-equivalence of flat expressions. -/
def aeqF (a b : FExpr) : Prop := stripF a = stripF b

instance (a b : FExpr) : Decidable (aeqF a b) :=
  inferInstanceAs (Decidable (stripF a = stripF b))

/-- Trivial (atomic) surface expressions: everything but an application. -/
def isTrivial : Expr → Bool
  | .app _ _ => false
  | _ => true

/-- Every identifier of the set lies strictly below the counter `c`: the
invariant that `FreeVar::fresh_named`'s global uniqueness maintains. -/
def below (S : Finset Nat) (c : Nat) : Prop := ∀ i ∈ S, i < c

/-- Shift every identifier at or above the threshold `c` up by `d`; the
renaming that aligns two runs of the kernel started at different counters. -/
def shiftIds (c d i : Nat) : Nat := if i < c then i else i + d

mutual

/-- Every user-expression argument position in this user expression holds an
atom (a variable, literal or lambda) — trivially so, since the `UExpr` grammar
has no call constructor; descends into lambda bodies. -/
def atomicArgsU : UExpr → Bool
  | .lam _ _ b => atomicArgsC b
  | .var _ => true
  | .lit _ => true

/-- As `atomicArgsU`, for continuation expressions. -/
def atomicArgsK : KExpr → Bool
  | .lam _ b => atomicArgsC b
  | .var _ => true
  | .lit _ => true

/-- The value argument `v` of every `UCall(f, v, c)` and `KCall(f, v)` in this
call is syntactically a variable, literal, or lambda (and recursively so in
all subterms). -/
def atomicArgsC : CCall → Bool
  | .ucall f v c =>
    (match v with
      | .lam _ _ _ => true
      | .var _ => true
      | .lit _ => true) && atomicArgsU f && atomicArgsU v && atomicArgsK c
  | .kcall f v =>
    (match v with
      | .lam _ _ _ => true
      | .var _ => true
      | .lit _ => true) && atomicArgsK f && atomicArgsU v

end

theorem sizeE_openE (j : Nat) (x : FreeVar) (e : Expr) :
    sizeE (openE j x e) = sizeE e := by
  induction e generalizing j with
  | lam p b ih => simp [openE, sizeE, ih]
  | var v =>
    cases v with
    | free v => simp [openE, sizeE]
    | bound n =>
      by_cases h : n = j <;> simp [openE, sizeE, h]
  | lit l => simp [openE, sizeE]
  | app f e ihf ihe => simp [openE, sizeE, ihf, ihe]

mutual

theorem sizeU_closeU (j : Nat) (x : FreeVar) (u : UExpr) :
    sizeU (closeU j x u) = sizeU u := by
  cases u with
  | lam p k b =>
    have ih := sizeC_closeC (j+2) x b
    simp [closeU, sizeU, ih]
  | var v =>
    cases v with
    | free v => by_cases h : v.id = x.id <;> simp [closeU, sizeU, h]
    | bound n => simp [closeU, sizeU]
  | lit l => simp [closeU, sizeU]

theorem sizeK_closeK (j : Nat) (x : FreeVar) (k : KExpr) :
    sizeK (closeK j x k) = sizeK k := by
  cases k with
  | lam p b =>
    have ih := sizeC_closeC (j+1) x b
    simp [closeK, sizeK, ih]
  | var v =>
    cases v with
    | free v => by_cases h : v.id = x.id <;> simp [closeK, sizeK, h]
    | bound n => simp [closeK, sizeK]
  | lit l => simp [closeK, sizeK]

theorem sizeC_closeC (j : Nat) (x : FreeVar) (c : CCall) :
    sizeC (closeC j x c) = sizeC c := by
  cases c with
  | ucall f v k =>
    have ihf := sizeU_closeU j x f
    have ihv := sizeU_closeU j x v
    have ihk := sizeK_closeK j x k
    simp [closeC, sizeC, ihf, ihv, ihk]
  | kcall f v =>
    have ihf := sizeK_closeK j x f
    have ihv := sizeU_closeU j x v
    simp [closeC, sizeC, ihf, ihv]

end

mutual

theorem stripU_closeU (j : Nat) (x : FreeVar) (u : UExpr) :
    stripU (closeU j x u) = closeU j (stripFV x) (stripU u) := by
  cases u with
  | lam p k b =>
    have ih := stripC_closeC (j+2) x b
    simp [closeU, stripU, ih]
  | var v =>
    cases v with
    | free v =>
      by_cases h : v.id = x.id <;>
        simp [closeU, stripU, stripVar, stripFV, h]
    | bound n => simp [closeU, stripU, stripVar]
  | lit l => simp [closeU, stripU]

theorem stripK_closeK (j : Nat) (x : FreeVar) (k : KExpr) :
    stripK (closeK j x k) = closeK j (stripFV x) (stripK k) := by
  cases k with
  | lam p b =>
    have ih := stripC_closeC (j+1) x b
    simp [closeK, stripK, ih]
  | var v =>
    cases v with
    | free v =>
      by_cases h : v.id = x.id <;>
        simp [closeK, stripK, stripVar, stripFV, h]
    | bound n => simp [closeK, stripK, stripVar]
  | lit l => simp [closeK, stripK]

theorem stripC_closeC (j : Nat) (x : FreeVar) (c : CCall) :
    stripC (closeC j x c) = closeC j (stripFV x) (stripC c) := by
  cases c with
  | ucall f v k =>
    have ihf := stripU_closeU j x f
    have ihv := stripU_closeU j x v
    have ihk := stripK_closeK j x k
    simp [closeC, stripC, ihf, ihv, ihk]
  | kcall f v =>
    have ihf := stripK_closeK j x f
    have ihv := stripU_closeU j x v
    simp [closeC, stripC, ihf, ihv]

end

mutual

theorem fvU_closeU (j : Nat) (x : FreeVar) (u : UExpr) :
    fvU (closeU j x u) = fvU u \ {x.id} := by
  cases u with
  | lam p k b =>
    have ih := fvC_closeC (j+2) x b
    simp [closeU, fvU, ih]
  | var v =>
    cases v with
    | free v =>
      ext n
      by_cases h : v.id = x.id <;> simp [closeU, fvU, fvVar, h] <;> omega
    | bound n => simp [closeU, fvU, fvVar]
  | lit l => simp [closeU, fvU]

theorem fvK_closeK (j : Nat) (x : FreeVar) (k : KExpr) :
    fvK (closeK j x k) = fvK k \ {x.id} := by
  cases k with
  | lam p b =>
    have ih := fvC_closeC (j+1) x b
    simp [closeK, fvK, ih]
  | var v =>
    cases v with
    | free v =>
      ext n
      by_cases h : v.id = x.id <;> simp [closeK, fvK, fvVar, h] <;> omega
    | bound n => simp [closeK, fvK, fvVar]
  | lit l => simp [closeK, fvK]

theorem fvC_closeC (j : Nat) (x : FreeVar) (c : CCall) :
    fvC (closeC j x c) = fvC c \ {x.id} := by
  cases c with
  | ucall f v k =>
    have ihf := fvU_closeU j x f
    have ihv := fvU_closeU j x v
    have ihk := fvK_closeK j x k
    simp [closeC, fvC, ihf, ihv, ihk, Finset.union_sdiff_distrib]
  | kcall f v =>
    have ihf := fvK_closeK j x f
    have ihv := fvU_closeU j x v
    simp [closeC, fvC, ihf, ihv, Finset.union_sdiff_distrib]

end

theorem stripE_openE (j : Nat) (x : FreeVar) (e : Expr) :
    stripE (openE j x e) = openE j (stripFV x) (stripE e) := by
  induction e generalizing j with
  | lam p b ih => simp [openE, stripE, ih]
  | var v =>
    cases v with
    | free v => simp [openE, stripE, stripVar]
    | bound n =>
      by_cases h : n = j <;> simp [openE, stripE, stripVar, h]
  | lit l => simp [openE, stripE]
  | app f e ihf ihe => simp [openE, stripE, ihf, ihe]

theorem fvE_openE_subset (j : Nat) (x : FreeVar) (e : Expr) :
    fvE (openE j x e) ⊆ fvE e ∪ {x.id} := by
  induction e generalizing j with
  | lam p b ih => simpa [openE, fvE] using ih (j+1)
  | var v =>
    cases v with
    | free v => simp [openE, fvE, fvVar]
    | bound n =>
      by_cases h : n = j <;> simp [openE, fvE, fvVar, h]
  | lit l => simp [openE, fvE]
  | app f e ihf ihe =>
    simp only [openE, fvE]
    intro n hn
    rcases Finset.mem_union.1 hn with hn | hn
    · rcases Finset.mem_union.1 (ihf j hn) with h | h <;> simp [h]
    · rcases Finset.mem_union.1 (ihe j hn) with h | h <;> simp [h]

theorem fvE_subset_openE (j : Nat) (x : FreeVar) (e : Expr) :
    fvE e ⊆ fvE (openE j x e) := by
  induction e generalizing j with
  | lam p b ih => simpa [openE, fvE] using ih (j+1)
  | var v =>
    cases v with
    | free v => simp [openE, fvE, fvVar]
    | bound n => simp [openE, fvE, fvVar]
  | lit l => simp [openE, fvE]
  | app f e ihf ihe =>
    simp only [openE, fvE]
    exact Finset.union_subset_union (ihf j) (ihe j)

mutual

theorem mapU_closeU (r : Nat → Nat) (hr : Function.Injective r) (j : Nat)
    (x : FreeVar) (u : UExpr) :
    mapU r (closeU j x u) = closeU j (mapFV r x) (mapU r u) := by
  cases u with
  | lam p k b =>
    have ih := mapC_closeC r hr (j+2) x b
    simp [closeU, mapU, ih]
  | var v =>
    cases v with
    | free v =>
      by_cases h : v.id = x.id
      · simp [closeU, mapU, mapVar, mapFV, h]
      · have h' : ¬ r v.id = r x.id := fun hc => h (hr hc)
        simp [closeU, mapU, mapVar, mapFV, h, h']
    | bound n => simp [closeU, mapU, mapVar]
  | lit l => simp [closeU, mapU]

theorem mapK_closeK (r : Nat → Nat) (hr : Function.Injective r) (j : Nat)
    (x : FreeVar) (k : KExpr) :
    mapK r (closeK j x k) = closeK j (mapFV r x) (mapK r k) := by
  cases k with
  | lam p b =>
    have ih := mapC_closeC r hr (j+1) x b
    simp [closeK, mapK, ih]
  | var v =>
    cases v with
    | free v =>
      by_cases h : v.id = x.id
      · simp [closeK, mapK, mapVar, mapFV, h]
      · have h' : ¬ r v.id = r x.id := fun hc => h (hr hc)
        simp [closeK, mapK, mapVar, mapFV, h, h']
    | bound n => simp [closeK, mapK, mapVar]
  | lit l => simp [closeK, mapK]

theorem mapC_closeC (r : Nat → Nat) (hr : Function.Injective r) (j : Nat)
    (x : FreeVar) (c : CCall) :
    mapC r (closeC j x c) = closeC j (mapFV r x) (mapC r c) := by
  cases c with
  | ucall f v k =>
    have ihf := mapU_closeU r hr j x f
    have ihv := mapU_closeU r hr j x v
    have ihk := mapK_closeK r hr j x k
    simp [closeC, mapC, ihf, ihv, ihk]
  | kcall f v =>
    have ihf := mapK_closeK r hr j x f
    have ihv := mapU_closeU r hr j x v
    simp [closeC, mapC, ihf, ihv]

end

theorem mapE_openE (r : Nat → Nat) (j : Nat) (x : FreeVar) (e : Expr) :
    mapE r (openE j x e) = openE j (mapFV r x) (mapE r e) := by
  induction e generalizing j with
  | lam p b ih => simp [openE, mapE, ih]
  | var v =>
    cases v with
    | free v => simp [openE, mapE, mapVar]
    | bound n =>
      by_cases h : n = j <;> simp [openE, mapE, mapVar, h]
  | lit l => simp [openE, mapE]
  | app f e ihf ihe => simp [openE, mapE, ihf, ihe]

mutual

theorem stripU_mapU (r : Nat → Nat) (u : UExpr)
    (hfix : ∀ n ∈ fvU u, r n = n) : stripU (mapU r u) = stripU u := by
  cases u with
  | lam p k b =>
    have ih := stripC_mapC r b (by simpa [fvU] using hfix)
    simp [mapU, stripU, ih]
  | var v =>
    cases v with
    | free v =>
      have h := hfix v.id (by simp [fvU, fvVar])
      simp [mapU, stripU, stripVar, mapVar, mapFV, stripFV, h]
    | bound n => simp [mapU, stripU, stripVar, mapVar]
  | lit l => simp [mapU, stripU]

theorem stripK_mapK (r : Nat → Nat) (k : KExpr)
    (hfix : ∀ n ∈ fvK k, r n = n) : stripK (mapK r k) = stripK k := by
  cases k with
  | lam p b =>
    have ih := stripC_mapC r b (by simpa [fvK] using hfix)
    simp [mapK, stripK, ih]
  | var v =>
    cases v with
    | free v =>
      have h := hfix v.id (by simp [fvK, fvVar])
      simp [mapK, stripK, stripVar, mapVar, mapFV, stripFV, h]
    | bound n => simp [mapK, stripK, stripVar, mapVar]
  | lit l => simp [mapK, stripK]

theorem stripC_mapC (r : Nat → Nat) (c : CCall)
    (hfix : ∀ n ∈ fvC c, r n = n) : stripC (mapC r c) = stripC c := by
  cases c with
  | ucall f v k =>
    have ihf := stripU_mapU r f (fun n hn => hfix n (by simp [fvC, hn]))
    have ihv := stripU_mapU r v (fun n hn => hfix n (by simp [fvC, hn]))
    have ihk := stripK_mapK r k (fun n hn => hfix n (by simp [fvC, hn]))
    simp [mapC, stripC, ihf, ihv, ihk]
  | kcall f v =>
    have ihf := stripK_mapK r f (fun n hn => hfix n (by simp [fvC, hn]))
    have ihv := stripU_mapU r v (fun n hn => hfix n (by simp [fvC, hn]))
    simp [mapC, stripC, ihf, ihv]

end

theorem stripE_mapE (r : Nat → Nat) (e : Expr)
    (hfix : ∀ n ∈ fvE e, r n = n) : stripE (mapE r e) = stripE e := by
  induction e with
  | lam p b ih => simp [mapE, stripE, ih (by simpa [fvE] using hfix)]
  | var v =>
    cases v with
    | free v =>
      have h := hfix v.id (by simp [fvE, fvVar])
      simp [mapE, stripE, stripVar, mapVar, mapFV, stripFV, h]
    | bound n => simp [mapE, stripE, stripVar, mapVar]
  | lit l => simp [mapE, stripE]
  | app f e ihf ihe =>
    have hf := ihf (fun n hn => hfix n (by simp [fvE, hn]))
    have he := ihe (fun n hn => hfix n (by simp [fvE, hn]))
    simp [mapE, stripE, hf, he]

mutual

theorem stripF_into_fexprU (u : UExpr) :
    stripF u.into_fexpr = (stripU u).into_fexpr := by
  cases u with
  | lam p k b =>
    have ih := stripF_into_fexprC b
    simp [UExpr.into_fexpr, stripF, stripU, ih]
  | var v => simp [UExpr.into_fexpr, stripF, stripU]
  | lit l => simp [UExpr.into_fexpr, stripF, stripU]

theorem stripF_into_fexprK (k : KExpr) :
    stripF k.into_fexpr = (stripK k).into_fexpr := by
  cases k with
  | lam p b =>
    have ih := stripF_into_fexprC b
    simp [KExpr.into_fexpr, stripF, stripK, ih]
  | var v => simp [KExpr.into_fexpr, stripF, stripK]
  | lit l => simp [KExpr.into_fexpr, stripF, stripK]

theorem stripF_into_fexprC (c : CCall) :
    stripF c.into_fexpr = (stripC c).into_fexpr := by
  cases c with
  | ucall f v k =>
    have ihf := stripF_into_fexprU f
    have ihv := stripF_into_fexprU v
    have ihk := stripF_into_fexprK k
    simp [CCall.into_fexpr, stripF, stripC, ihf, ihv, ihk]
  | kcall f v =>
    have ihf := stripF_into_fexprK f
    have ihv := stripF_into_fexprU v
    simp [CCall.into_fexpr, stripF, stripC, ihf, ihv]

end

theorem kernel_total_aux (n : Nat) :
    ∀ e, sizeE e ≤ n →
      (isTrivial e = true → ∀ c, (m e c).isSome) ∧
      (∀ k c, (t_k e k c).isSome) ∧
      (∀ cv c, (t_c e cv c).isSome) := by
  induction n with
  | zero =>
    intro e he
    exfalso
    cases e <;> simp [sizeE] at he
  | succ n ih =>
    intro e he
    cases e with
    | lam p b =>
      have hm : ∀ c, (m (.lam p b) c).isSome := by
        intro c
        have hb : sizeE (openE 0 (fresh p.hint c).1 b) ≤ n := by
          rw [sizeE_openE]
          simp [sizeE] at he
          omega
        have := (ih _ hb).2.2 (fresh "k" (fresh p.hint c).2).1
          (fresh "k" (fresh p.hint c).2).2
        obtain ⟨bc, hbc⟩ := Option.isSome_iff_exists.mp this
        simp [m, hbc]
      refine ⟨fun _ => hm, fun k c => ?_, fun cv c => ?_⟩
      · obtain ⟨u, hu⟩ := Option.isSome_iff_exists.mp (hm c)
        simp [t_k, hu]
      · obtain ⟨u, hu⟩ := Option.isSome_iff_exists.mp (hm c)
        simp [t_c, hu]
    | var v =>
      exact ⟨fun _ c => by simp [m], fun k c => by simp [t_k, m],
        fun cv c => by simp [t_c, m]⟩
    | lit l =>
      exact ⟨fun _ c => by simp [m], fun k c => by simp [t_k, m],
        fun cv c => by simp [t_c, m]⟩
    | app f e =>
      have hf : sizeE f ≤ n := by simp [sizeE] at he; omega
      have he' : sizeE e ≤ n := by simp [sizeE] at he; omega
      refine ⟨fun h => by simp [isTrivial] at h, fun k c => ?_, fun cv c => ?_⟩
      · have h1 := (ih e he').2.1
          (mkKLam (fresh "e" (fresh "f" (fresh "rv" c).2).2).1
            (.ucall (.var (.free (fresh "f" (fresh "rv" c).2).1))
              (.var (.free (fresh "e" (fresh "f" (fresh "rv" c).2).2).1))
              (mkKLam (fresh "rv" c).1
                (.kcall k (.var (.free (fresh "rv" c).1))))))
          (fresh "e" (fresh "f" (fresh "rv" c).2).2).2
        obtain ⟨ic, hic⟩ := Option.isSome_iff_exists.mp h1
        have h2 := (ih f hf).2.1 (mkKLam (fresh "f" (fresh "rv" c).2).1 ic.1)
          ic.2
        simp [t_k, hic, h2]
      · have h1 := (ih e he').2.1
          (mkKLam (fresh "e" (fresh "f" c).2).1
            (.ucall (.var (.free (fresh "f" c).1))
              (.var (.free (fresh "e" (fresh "f" c).2).1))
              (.var (.free cv))))
          (fresh "e" (fresh "f" c).2).2
        obtain ⟨ic, hic⟩ := Option.isSome_iff_exists.mp h1
        have h2 := (ih f hf).2.1 (mkKLam (fresh "f" c).1 ic.1) ic.2
        simp [t_c, hic, h2]

theorem m_isSome (e : Expr) (h : isTrivial e = true) (c : Nat) :
    (m e c).isSome :=
  (kernel_total_aux (sizeE e) e le_rfl).1 h c

theorem t_k_isSome (e : Expr) (k : KExpr) (c : Nat) :
    (t_k e k c).isSome :=
  (kernel_total_aux (sizeE e) e le_rfl).2.1 k c

theorem t_c_isSome (e : Expr) (cv : FreeVar) (c : Nat) :
    (t_c e cv c).isSome :=
  (kernel_total_aux (sizeE e) e le_rfl).2.2 cv c

theorem below_mono {S : Finset Nat} {c c' : Nat} (h : below S c)
    (hc : c ≤ c') : below S c' := fun i hi => lt_of_lt_of_le (h i hi) hc

theorem below_union {S T : Finset Nat} {c : Nat} :
    below (S ∪ T) c ↔ below S c ∧ below T c := by
  constructor
  · exact fun h => ⟨fun i hi => h i (by simp [hi]), fun i hi => h i (by simp [hi])⟩
  · rintro ⟨hS, hT⟩ i hi
    rcases Finset.mem_union.1 hi with hi | hi
    · exact hS i hi
    · exact hT i hi

theorem not_mem_of_below {S : Finset Nat} {c i : Nat} (h : below S c)
    (hi : c ≤ i) : i ∉ S := fun hmem => absurd (h i hmem) (by omega)

theorem union_singleton_sdiff (S : Finset Nat) (a : Nat) (h : a ∉ S) :
    (S ∪ {a}) \ ({a} : Finset Nat) = S := by
  ext i
  by_cases hia : i = a <;> simp [hia, h]

theorem sdiff_singleton_of_not_mem (S : Finset Nat) (a : Nat) (h : a ∉ S) :
    S \ ({a} : Finset Nat) = S := by
  ext i
  by_cases hia : i = a <;> simp [hia, h]

theorem fvK_mkKLam (x : FreeVar) (b : CCall) :
    fvK (mkKLam x b) = fvC b \ {x.id} := by
  simp [mkKLam, fvK, fvC_closeC]

theorem fvU_mkULam (p k : FreeVar) (b : CCall) :
    fvU (mkULam p k b) = (fvC b \ {k.id}) \ {p.id} := by
  simp [mkULam, fvU, fvC_closeC]

theorem t_k_app (f a : Expr) (k : KExpr) (c : Nat) :
    t_k (.app f a) k c =
      (t_k a (mkKLam ⟨c+2, "e"⟩
          (.ucall (.var (.free ⟨c+1, "f"⟩)) (.var (.free ⟨c+2, "e"⟩))
            (mkKLam ⟨c, "rv"⟩ (.kcall k (.var (.free ⟨c, "rv"⟩)))))) (c+3)).bind
        (fun ic => t_k f (mkKLam ⟨c+1, "f"⟩ ic.1) ic.2) := by
  rw [t_k]
  simp only [fresh, show c+1+1 = c+2 from rfl, show c+1+1+1 = c+3 from rfl]
  generalize t_k a (mkKLam ⟨c+2, "e"⟩
      (.ucall (.var (.free ⟨c+1, "f"⟩)) (.var (.free ⟨c+2, "e"⟩))
        (mkKLam ⟨c, "rv"⟩ (.kcall k (.var (.free ⟨c, "rv"⟩)))))) (c+3) = o
  cases o <;> rfl

theorem t_c_app (f a : Expr) (cv : FreeVar) (c : Nat) :
    t_c (.app f a) cv c =
      (t_k a (mkKLam ⟨c+1, "e"⟩
          (.ucall (.var (.free ⟨c, "f"⟩)) (.var (.free ⟨c+1, "e"⟩))
            (.var (.free cv)))) (c+2)).bind
        (fun ic => t_k f (mkKLam ⟨c, "f"⟩ ic.1) ic.2) := by
  rw [t_c]
  simp only [fresh, show c+1+1 = c+2 from rfl]
  generalize t_k a (mkKLam ⟨c+1, "e"⟩
      (.ucall (.var (.free ⟨c, "f"⟩)) (.var (.free ⟨c+1, "e"⟩))
        (.var (.free cv)))) (c+2) = o
  cases o <;> rfl

theorem t_k_trivial (e : Expr) (h : isTrivial e = true) (k : KExpr)
    (c : Nat) :
    t_k e k c = (m e c).map fun uc => (.kcall k uc.1, uc.2) := by
  cases e with
  | lam p b => rw [t_k]
  | var v => rw [t_k]
  | lit l => rw [t_k]
  | app f a => simp [isTrivial] at h

theorem t_c_trivial (e : Expr) (h : isTrivial e = true) (cv : FreeVar)
    (c : Nat) :
    t_c e cv c =
      (m e c).map fun uc => (.kcall (.var (.free cv)) uc.1, uc.2) := by
  cases e with
  | lam p b => rw [t_c]
  | var v => rw [t_c]
  | lit l => rw [t_c]
  | app f a => simp [isTrivial] at h

theorem m_lam (p : FreeVar) (b : Expr) (c : Nat) :
    m (.lam p b) c =
      (t_c (openE 0 ⟨c, p.hint⟩ b) ⟨c+1, "k"⟩ (c+2)).map
        fun bc => (mkULam ⟨c, p.hint⟩ ⟨c+1, "k"⟩ bc.1, bc.2) := by
  rw [m]
  simp only [fresh, show c+1+1 = c+2 from rfl]

theorem kernel_fv_aux (n : Nat) :
    ∀ e, sizeE e ≤ n →
      (∀ c u c', (m e c = some (u, c')) → below (fvE e) c →
        c ≤ c' ∧ fvU u = fvE e) ∧
      (∀ k c out c', (t_k e k c = some (out, c')) → below (fvE e) c →
        below (fvK k) c → c ≤ c' ∧ fvC out = fvE e ∪ fvK k) ∧
      (∀ cv c out c', (t_c e cv c = some (out, c')) → below (fvE e) c →
        cv.id < c → c ≤ c' ∧ fvC out = fvE e ∪ {cv.id}) := by
  induction n with
  | zero =>
    intro e he
    exfalso
    cases e <;> simp [sizeE] at he
  | succ n ih =>
    intro e he
    cases e with
    | lam p b =>
      have hm : ∀ c u c', (m (.lam p b) c = some (u, c')) →
          below (fvE (.lam p b)) c → c ≤ c' ∧ fvU u = fvE (.lam p b) := by
        intro c u c' heq hE
        rw [m_lam] at heq
        obtain ⟨⟨body, c3⟩, hbody⟩ := Option.isSome_iff_exists.mp
          (t_c_isSome (openE 0 ⟨c, p.hint⟩ b) ⟨c+1, "k"⟩ (c+2))
        rw [hbody] at heq
        simp only [Option.map_some', Option.some.injEq, Prod.mk.injEq] at heq
        obtain ⟨hu, hc3⟩ := heq
        have hsz : sizeE (openE 0 (⟨c, p.hint⟩ : FreeVar) b) ≤ n := by
          rw [sizeE_openE]
          simp [sizeE] at he
          omega
        have hsub := fvE_openE_subset 0 (⟨c, p.hint⟩ : FreeVar) b
        have hsup := fvE_subset_openE 0 (⟨c, p.hint⟩ : FreeVar) b
        have hEb : below (fvE b) c := by
          intro i hi
          exact hE i (by simpa [fvE] using hi)
        have hEt : below (fvE (openE 0 (⟨c, p.hint⟩ : FreeVar) b)) (c+2) := by
          intro i hi
          rcases Finset.mem_union.1 (hsub hi) with h | h
          · have := hEb i h
            omega
          · simp at h
            omega
        obtain ⟨hc2, hfv⟩ := (ih _ hsz).2.2 ⟨c+1, "k"⟩ (c+2) body c3 hbody hEt
          (show c+1 < c+2 by omega)
        refine ⟨by omega, ?_⟩
        rw [← hu, fvU_mkULam, hfv]
        have h1 : (c+1) ∉ fvE (openE 0 (⟨c, p.hint⟩ : FreeVar) b) := by
          intro hmem
          rcases Finset.mem_union.1 (hsub hmem) with h | h
          · have := hEb _ h
            omega
          · simp at h
        rw [show ((⟨c+1, "k"⟩ : FreeVar).id) = c+1 from rfl,
          show ((⟨c, p.hint⟩ : FreeVar).id) = c from rfl,
          union_singleton_sdiff _ _ h1]
        ext i
        simp only [Finset.mem_sdiff, Finset.mem_singleton, fvE]
        constructor
        · rintro ⟨hi, hne⟩
          rcases Finset.mem_union.1 (hsub hi) with h | h
          · exact h
          · simp at h
            exact absurd h hne
        · intro hi
          have := hEb i hi
          exact ⟨hsup hi, by omega⟩
      refine ⟨hm, ?_, ?_⟩
      · intro k c out c' heq hE hK
        rw [t_k_trivial (Expr.lam p b) rfl] at heq
        obtain ⟨⟨u, c2⟩, hu⟩ :=
          Option.isSome_iff_exists.mp (m_isSome (.lam p b) rfl c)
        rw [hu] at heq
        simp only [Option.map_some', Option.some.injEq, Prod.mk.injEq] at heq
        obtain ⟨hout, hc2⟩ := heq
        obtain ⟨hcm, hfvm⟩ := hm c u c2 hu hE
        refine ⟨by omega, ?_⟩
        rw [← hout]
        simp [fvC, hfvm, Finset.union_comm]
      · intro cv c out c' heq hE hcv
        rw [t_c_trivial (Expr.lam p b) rfl] at heq
        obtain ⟨⟨u, c2⟩, hu⟩ :=
          Option.isSome_iff_exists.mp (m_isSome (.lam p b) rfl c)
        rw [hu] at heq
        simp only [Option.map_some', Option.some.injEq, Prod.mk.injEq] at heq
        obtain ⟨hout, hc2⟩ := heq
        obtain ⟨hcm, hfvm⟩ := hm c u c2 hu hE
        refine ⟨by omega, ?_⟩
        rw [← hout]
        simp [fvC, fvK, fvVar, hfvm, Finset.union_comm]
    | var v =>
      have hm : ∀ c u c', (m (.var v) c = some (u, c')) →
          below (fvE (.var v)) c → c ≤ c' ∧ fvU u = fvE (.var v) := by
        intro c u c' heq hE
        simp only [m, Option.some.injEq, Prod.mk.injEq] at heq
        obtain ⟨hu, hc⟩ := heq
        exact ⟨by omega, by rw [← hu]; simp [fvU, fvE]⟩
      refine ⟨hm, ?_, ?_⟩
      · intro k c out c' heq hE hK
        rw [t_k_trivial (Expr.var v) rfl] at heq
        simp only [m, Option.map_some', Option.some.injEq,
          Prod.mk.injEq] at heq
        obtain ⟨hout, hc⟩ := heq
        exact ⟨by omega,
          by rw [← hout]; simp [fvC, fvU, fvE, Finset.union_comm]⟩
      · intro cv c out c' heq hE hcv
        rw [t_c_trivial (Expr.var v) rfl] at heq
        simp only [m, Option.map_some', Option.some.injEq,
          Prod.mk.injEq] at heq
        obtain ⟨hout, hc⟩ := heq
        exact ⟨by omega,
          by rw [← hout]; simp [fvC, fvU, fvK, fvVar, fvE, Finset.union_comm]⟩
    | lit l =>
      have hm : ∀ c u c', (m (.lit l) c = some (u, c')) →
          below (fvE (.lit l)) c → c ≤ c' ∧ fvU u = fvE (.lit l) := by
        intro c u c' heq hE
        simp only [m, Option.some.injEq, Prod.mk.injEq] at heq
        obtain ⟨hu, hc⟩ := heq
        exact ⟨by omega, by rw [← hu]; simp [fvU, fvE]⟩
      refine ⟨hm, ?_, ?_⟩
      · intro k c out c' heq hE hK
        rw [t_k_trivial (Expr.lit l) rfl] at heq
        simp only [m, Option.map_some', Option.some.injEq,
          Prod.mk.injEq] at heq
        obtain ⟨hout, hc⟩ := heq
        exact ⟨by omega, by rw [← hout]; simp [fvC, fvU, fvE]⟩
      · intro cv c out c' heq hE hcv
        rw [t_c_trivial (Expr.lit l) rfl] at heq
        simp only [m, Option.map_some', Option.some.injEq,
          Prod.mk.injEq] at heq
        obtain ⟨hout, hc⟩ := heq
        exact ⟨by omega,
          by rw [← hout]; simp [fvC, fvU, fvK, fvVar, fvE]⟩
    | app f a =>
      have hszf : sizeE f ≤ n := by simp [sizeE] at he; omega
      have hsza : sizeE a ≤ n := by simp [sizeE] at he; omega
      refine ⟨?_, ?_, ?_⟩
      · intro c u c' heq hE
        simp [m] at heq
      · intro k c out c' heq hE hK
        rw [t_k_app] at heq
        obtain ⟨⟨ic, c4⟩, hA⟩ := Option.isSome_iff_exists.mp
          (t_k_isSome a (mkKLam ⟨c+2, "e"⟩
            (.ucall (.var (.free ⟨c+1, "f"⟩)) (.var (.free ⟨c+2, "e"⟩))
              (mkKLam ⟨c, "rv"⟩ (.kcall k (.var (.free ⟨c, "rv"⟩))))))
            (c+3))
        rw [hA] at heq
        simp only [Option.some_bind] at heq
        have hEf : below (fvE f) c := by
          intro i hi
          exact hE i (by simp [fvE, hi])
        have hEa : below (fvE a) c := by
          intro i hi
          exact hE i (by simp [fvE, hi])
        have hcont : fvK (mkKLam ⟨c, "rv"⟩
            (.kcall k (.var (.free ⟨c, "rv"⟩)))) = fvK k := by
          rw [fvK_mkKLam]
          simp only [fvC, fvU, fvVar]
          exact union_singleton_sdiff _ _ (not_mem_of_below hK le_rfl)
        have hka : fvK (mkKLam ⟨c+2, "e"⟩
            (.ucall (.var (.free ⟨c+1, "f"⟩)) (.var (.free ⟨c+2, "e"⟩))
              (mkKLam ⟨c, "rv"⟩ (.kcall k (.var (.free ⟨c, "rv"⟩)))))) =
            fvK k ∪ {c+1} := by
          rw [fvK_mkKLam]
          simp only [fvC, fvU, fvVar, hcont]
          have h2 : (c+2) ∉ fvK k := not_mem_of_below hK (by omega)
          have h3 : (c+2) ∉ ({c+1} : Finset Nat) := by simp
          rw [Finset.union_sdiff_distrib, Finset.union_sdiff_distrib,
            Finset.sdiff_self, sdiff_singleton_of_not_mem _ _ h3,
            sdiff_singleton_of_not_mem _ _ h2]
          simp [Finset.union_comm]
        obtain ⟨hc4, hfva⟩ := (ih a hsza).2.1 _ (c+3) ic c4 hA
          (below_mono hEa (by omega))
          (by
            rw [hka]
            refine below_union.2 ⟨below_mono hK (by omega), ?_⟩
            intro i hi
            simp at hi
            omega)
        rw [hka] at hfva
        have hkf : fvK (mkKLam ⟨c+1, "f"⟩ ic) = fvE a ∪ fvK k := by
          rw [fvK_mkKLam, hfva]
          simp only [show (⟨c+1, "f"⟩ : FreeVar).id = c+1 from rfl]
          have h1 : (c+1) ∉ fvE a := not_mem_of_below hEa (by omega)
          have h2 : (c+1) ∉ fvK k := not_mem_of_below hK (by omega)
          rw [Finset.union_sdiff_distrib, Finset.union_sdiff_distrib,
            Finset.sdiff_self, sdiff_singleton_of_not_mem _ _ h1,
            sdiff_singleton_of_not_mem _ _ h2]
          simp
        obtain ⟨hcf, hfvf⟩ := (ih f hszf).2.1 _ c4 out c' heq
          (below_mono hEf (by omega))
          (by
            rw [hkf]
            exact below_union.2 ⟨below_mono hEa (by omega),
              below_mono hK (by omega)⟩)
        refine ⟨by omega, ?_⟩
        rw [hfvf, hkf]
        simp [fvE, Finset.union_assoc]
      · intro cv c out c' heq hE hcv
        rw [t_c_app] at heq
        obtain ⟨⟨ic, c4⟩, hA⟩ := Option.isSome_iff_exists.mp
          (t_k_isSome a (mkKLam ⟨c+1, "e"⟩
            (.ucall (.var (.free ⟨c, "f"⟩)) (.var (.free ⟨c+1, "e"⟩))
              (.var (.free cv)))) (c+2))
        rw [hA] at heq
        simp only [Option.some_bind] at heq
        have hEf : below (fvE f) c := by
          intro i hi
          exact hE i (by simp [fvE, hi])
        have hEa : below (fvE a) c := by
          intro i hi
          exact hE i (by simp [fvE, hi])
        have hka : fvK (mkKLam ⟨c+1, "e"⟩
            (.ucall (.var (.free ⟨c, "f"⟩)) (.var (.free ⟨c+1, "e"⟩))
              (.var (.free cv)))) = {c} ∪ {cv.id} := by
          rw [fvK_mkKLam]
          simp only [fvC, fvU, fvK, fvVar]
          have h2 : (c+1) ∉ ({cv.id} : Finset Nat) := by simp; omega
          have h3 : (c+1) ∉ ({c} : Finset Nat) := by simp
          rw [Finset.union_sdiff_distrib, Finset.union_sdiff_distrib,
            Finset.sdiff_self, sdiff_singleton_of_not_mem _ _ h3,
            sdiff_singleton_of_not_mem _ _ h2]
          simp
        obtain ⟨hc4, hfva⟩ := (ih a hsza).2.1 _ (c+2) ic c4 hA
          (below_mono hEa (by omega))
          (by
            rw [hka]
            refine below_union.2 ⟨?_, ?_⟩ <;> intro i hi <;> simp at hi <;>
              omega)
        rw [hka] at hfva
        have hkf : fvK (mkKLam ⟨c, "f"⟩ ic) = fvE a ∪ {cv.id} := by
          rw [fvK_mkKLam, hfva]
          simp only [show (⟨c, "f"⟩ : FreeVar).id = c from rfl]
          have h1 : (c : Nat) ∉ fvE a := not_mem_of_below hEa (by omega)
          have h2 : (c : Nat) ∉ ({cv.id} : Finset Nat) := by simp; omega
          rw [Finset.union_sdiff_distrib, Finset.union_sdiff_distrib,
            sdiff_singleton_of_not_mem _ _ h1, Finset.sdiff_self,
            sdiff_singleton_of_not_mem _ _ h2]
          simp
        obtain ⟨hcf, hfvf⟩ := (ih f hszf).2.1 _ c4 out c' heq
          (below_mono hEf (by omega))
          (by
            rw [hkf]
            refine below_union.2 ⟨below_mono hEa (by omega), ?_⟩
            intro i hi
            simp at hi
            omega)
        refine ⟨by omega, ?_⟩
        rw [hfvf, hkf]
        simp [fvE, Finset.union_assoc]

theorem sizeK_mkKLam (x : FreeVar) (b : CCall) :
    sizeK (mkKLam x b) = sizeC b + 1 := by
  simp [mkKLam, sizeK, sizeC_closeC]

theorem sizeK_var (v : Var) : sizeK (.var v) = 1 := by
  simp [sizeK]

theorem sizeU_mkULam (p k : FreeVar) (b : CCall) :
    sizeU (mkULam p k b) = sizeC b + 1 := by
  simp [mkULam, sizeU, sizeC_closeC]

theorem kernel_size_aux (n : Nat) :
    ∀ e, sizeE e ≤ n →
      (∀ c u c', m e c = some (u, c') → sizeU u + 2 ≤ 8 * sizeE e) ∧
      (∀ k c out c', t_k e k c = some (out, c') →
        sizeC out ≤ sizeK k + 8 * sizeE e) ∧
      (∀ cv c out c', t_c e cv c = some (out, c') →
        sizeC out ≤ 1 + 8 * sizeE e) := by
  induction n with
  | zero =>
    intro e he
    exfalso
    cases e <;> simp [sizeE] at he
  | succ n ih =>
    intro e he
    cases e with
    | lam p b =>
      have hm : ∀ c u c', m (.lam p b) c = some (u, c') →
          sizeU u + 2 ≤ 8 * sizeE (.lam p b) := by
        intro c u c' heq
        rw [m_lam] at heq
        obtain ⟨⟨body, c3⟩, hbody⟩ := Option.isSome_iff_exists.mp
          (t_c_isSome (openE 0 ⟨c, p.hint⟩ b) ⟨c+1, "k"⟩ (c+2))
        rw [hbody] at heq
        simp only [Option.map_some', Option.some.injEq, Prod.mk.injEq] at heq
        obtain ⟨hu, hc3⟩ := heq
        have hsz : sizeE (openE 0 (⟨c, p.hint⟩ : FreeVar) b) ≤ n := by
          rw [sizeE_openE]
          simp [sizeE] at he
          omega
        have hb := (ih _ hsz).2.2 ⟨c+1, "k"⟩ (c+2) body c3 hbody
        rw [sizeE_openE] at hb
        rw [← hu, sizeU_mkULam]
        simp [sizeE]
        omega
      refine ⟨hm, ?_, ?_⟩
      · intro k c out c' heq
        rw [t_k_trivial (Expr.lam p b) rfl] at heq
        obtain ⟨⟨u, c2⟩, hu⟩ :=
          Option.isSome_iff_exists.mp (m_isSome (.lam p b) rfl c)
        rw [hu] at heq
        simp only [Option.map_some', Option.some.injEq, Prod.mk.injEq] at heq
        obtain ⟨hout, hc2⟩ := heq
        have := hm c u c2 hu
        rw [← hout]
        simp only [sizeC]
        omega
      · intro cv c out c' heq
        rw [t_c_trivial (Expr.lam p b) rfl] at heq
        obtain ⟨⟨u, c2⟩, hu⟩ :=
          Option.isSome_iff_exists.mp (m_isSome (.lam p b) rfl c)
        rw [hu] at heq
        simp only [Option.map_some', Option.some.injEq, Prod.mk.injEq] at heq
        obtain ⟨hout, hc2⟩ := heq
        have := hm c u c2 hu
        rw [← hout]
        simp only [sizeC, sizeK]
        omega
    | var v =>
      have hm : ∀ c u c', m (.var v) c = some (u, c') →
          sizeU u + 2 ≤ 8 * sizeE (.var v) := by
        intro c u c' heq
        simp only [m, Option.some.injEq, Prod.mk.injEq] at heq
        obtain ⟨hu, hc⟩ := heq
        rw [← hu]
        simp [sizeU, sizeE]
      refine ⟨hm, ?_, ?_⟩
      · intro k c out c' heq
        rw [t_k_trivial (Expr.var v) rfl] at heq
        simp only [m, Option.map_some', Option.some.injEq,
          Prod.mk.injEq] at heq
        obtain ⟨hout, hc⟩ := heq
        rw [← hout]
        simp [sizeC, sizeU, sizeE]
      · intro cv c out c' heq
        rw [t_c_trivial (Expr.var v) rfl] at heq
        simp only [m, Option.map_some', Option.some.injEq,
          Prod.mk.injEq] at heq
        obtain ⟨hout, hc⟩ := heq
        rw [← hout]
        simp [sizeC, sizeU, sizeK, sizeE]
    | lit l =>
      have hm : ∀ c u c', m (.lit l) c = some (u, c') →
          sizeU u + 2 ≤ 8 * sizeE (.lit l) := by
        intro c u c' heq
        simp only [m, Option.some.injEq, Prod.mk.injEq] at heq
        obtain ⟨hu, hc⟩ := heq
        rw [← hu]
        simp [sizeU, sizeE]
      refine ⟨hm, ?_, ?_⟩
      · intro k c out c' heq
        rw [t_k_trivial (Expr.lit l) rfl] at heq
        simp only [m, Option.map_some', Option.some.injEq,
          Prod.mk.injEq] at heq
        obtain ⟨hout, hc⟩ := heq
        rw [← hout]
        simp [sizeC, sizeU, sizeE]
      · intro cv c out c' heq
        rw [t_c_trivial (Expr.lit l) rfl] at heq
        simp only [m, Option.map_some', Option.some.injEq,
          Prod.mk.injEq] at heq
        obtain ⟨hout, hc⟩ := heq
        rw [← hout]
        simp [sizeC, sizeU, sizeK, sizeE]
    | app f a =>
      have hszf : sizeE f ≤ n := by simp [sizeE] at he; omega
      have hsza : sizeE a ≤ n := by simp [sizeE] at he; omega
      refine ⟨?_, ?_, ?_⟩
      · intro c u c' heq
        simp [m] at heq
      · intro k c out c' heq
        rw [t_k_app] at heq
        obtain ⟨⟨ic, c4⟩, hA⟩ := Option.isSome_iff_exists.mp
          (t_k_isSome a (mkKLam ⟨c+2, "e"⟩
            (.ucall (.var (.free ⟨c+1, "f"⟩)) (.var (.free ⟨c+2, "e"⟩))
              (mkKLam ⟨c, "rv"⟩ (.kcall k (.var (.free ⟨c, "rv"⟩))))))
            (c+3))
        rw [hA] at heq
        simp only [Option.some_bind] at heq
        have hbnda := (ih a hsza).2.1 _ (c+3) ic c4 hA
        have hbndf := (ih f hszf).2.1 _ c4 out c' heq
        rw [sizeK_mkKLam] at hbndf
        simp only [sizeK_mkKLam, sizeC, sizeU] at hbnda
        simp only [sizeE]
        omega
      · intro cv c out c' heq
        rw [t_c_app] at heq
        obtain ⟨⟨ic, c4⟩, hA⟩ := Option.isSome_iff_exists.mp
          (t_k_isSome a (mkKLam ⟨c+1, "e"⟩
            (.ucall (.var (.free ⟨c, "f"⟩)) (.var (.free ⟨c+1, "e"⟩))
              (.var (.free cv)))) (c+2))
        rw [hA] at heq
        simp only [Option.some_bind] at heq
        have hbnda := (ih a hsza).2.1 _ (c+2) ic c4 hA
        have hbndf := (ih f hszf).2.1 _ c4 out c' heq
        rw [sizeK_mkKLam] at hbndf
        simp only [sizeK_mkKLam, sizeC, sizeU, sizeK_var] at hbnda
        simp only [sizeE]
        omega

theorem stripK_mkKLam (x : FreeVar) (b : CCall) :
    stripK (mkKLam x b) = .lam ⟨0, ""⟩ (closeC 0 ⟨x.id, ""⟩ (stripC b)) := by
  simp [mkKLam, stripK, stripC_closeC, stripFV]

theorem stripU_mkULam (p k : FreeVar) (b : CCall) :
    stripU (mkULam p k b) =
      .lam ⟨0, ""⟩ ⟨0, ""⟩
        (closeC 1 ⟨p.id, ""⟩ (closeC 0 ⟨k.id, ""⟩ (stripC b))) := by
  simp [mkULam, stripU, stripC_closeC, stripFV]

theorem kernel_congr_aux (n : Nat) :
    ∀ e1, sizeE e1 ≤ n →
      (∀ e2 c u1 c1 u2 c2, stripE e1 = stripE e2 →
        m e1 c = some (u1, c1) → m e2 c = some (u2, c2) →
        stripU u1 = stripU u2 ∧ c1 = c2) ∧
      (∀ e2 k1 k2 c o1 c1 o2 c2, stripE e1 = stripE e2 →
        stripK k1 = stripK k2 →
        t_k e1 k1 c = some (o1, c1) → t_k e2 k2 c = some (o2, c2) →
        stripC o1 = stripC o2 ∧ c1 = c2) ∧
      (∀ e2 cv c o1 c1 o2 c2, stripE e1 = stripE e2 →
        t_c e1 cv c = some (o1, c1) → t_c e2 cv c = some (o2, c2) →
        stripC o1 = stripC o2 ∧ c1 = c2) := by
  induction n with
  | zero =>
    intro e1 he
    exfalso
    cases e1 <;> simp [sizeE] at he
  | succ n ih =>
    intro e1 he
    cases e1 with
    | lam p1 b1 =>
      have hm : ∀ e2 c u1 c1 u2 c2, stripE (.lam p1 b1) = stripE e2 →
          m (.lam p1 b1) c = some (u1, c1) → m e2 c = some (u2, c2) →
          stripU u1 = stripU u2 ∧ c1 = c2 := by
        intro e2 c u1 c1 u2 c2 hstrip heq1 heq2
        cases e2 with
        | lam p2 b2 =>
          simp only [stripE, Expr.lam.injEq, true_and] at hstrip
          rw [m_lam] at heq1 heq2
          obtain ⟨⟨body1, d1⟩, hb1⟩ := Option.isSome_iff_exists.mp
            (t_c_isSome (openE 0 ⟨c, p1.hint⟩ b1) ⟨c+1, "k"⟩ (c+2))
          obtain ⟨⟨body2, d2⟩, hb2⟩ := Option.isSome_iff_exists.mp
            (t_c_isSome (openE 0 ⟨c, p2.hint⟩ b2) ⟨c+1, "k"⟩ (c+2))
          rw [hb1] at heq1
          rw [hb2] at heq2
          simp only [Option.map_some', Option.some.injEq,
            Prod.mk.injEq] at heq1 heq2
          obtain ⟨hu1, hc1⟩ := heq1
          obtain ⟨hu2, hc2⟩ := heq2
          have hsz : sizeE (openE 0 (⟨c, p1.hint⟩ : FreeVar) b1) ≤ n := by
            rw [sizeE_openE]
            simp [sizeE] at he
            omega
          have hstrip' : stripE (openE 0 (⟨c, p1.hint⟩ : FreeVar) b1) =
              stripE (openE 0 (⟨c, p2.hint⟩ : FreeVar) b2) := by
            rw [stripE_openE, stripE_openE, hstrip]
            simp [stripFV]
          obtain ⟨hbeq, hdeq⟩ := (ih _ hsz).2.2 _ ⟨c+1, "k"⟩ (c+2) body1 d1
            body2 d2 hstrip' hb1 hb2
          constructor
          · rw [← hu1, ← hu2, stripU_mkULam, stripU_mkULam, hbeq]
          · omega
        | var v => simp [stripE] at hstrip
        | lit l => simp [stripE] at hstrip
        | app f2 a2 => simp [stripE] at hstrip
      refine ⟨hm, ?_, ?_⟩
      · intro e2 k1 k2 c o1 c1 o2 c2 hstrip hK heq1 heq2
        have htriv2 : isTrivial e2 = true := by
          cases e2 <;> first
            | rfl
            | simp [stripE] at hstrip
        rw [t_k_trivial (Expr.lam p1 b1) rfl] at heq1
        rw [t_k_trivial e2 htriv2] at heq2
        obtain ⟨⟨u1, d1⟩, hu1⟩ :=
          Option.isSome_iff_exists.mp (m_isSome (.lam p1 b1) rfl c)
        obtain ⟨⟨u2, d2⟩, hu2⟩ :=
          Option.isSome_iff_exists.mp (m_isSome e2 htriv2 c)
        rw [hu1] at heq1
        rw [hu2] at heq2
        simp only [Option.map_some', Option.some.injEq,
          Prod.mk.injEq] at heq1 heq2
        obtain ⟨ho1, hc1⟩ := heq1
        obtain ⟨ho2, hc2⟩ := heq2
        obtain ⟨hueq, hdeq⟩ := hm e2 c u1 d1 u2 d2 hstrip hu1 hu2
        constructor
        · rw [← ho1, ← ho2]
          simp [stripC, hueq, hK]
        · omega
      · intro e2 cv c o1 c1 o2 c2 hstrip heq1 heq2
        have htriv2 : isTrivial e2 = true := by
          cases e2 <;> first
            | rfl
            | simp [stripE] at hstrip
        rw [t_c_trivial (Expr.lam p1 b1) rfl] at heq1
        rw [t_c_trivial e2 htriv2] at heq2
        obtain ⟨⟨u1, d1⟩, hu1⟩ :=
          Option.isSome_iff_exists.mp (m_isSome (.lam p1 b1) rfl c)
        obtain ⟨⟨u2, d2⟩, hu2⟩ :=
          Option.isSome_iff_exists.mp (m_isSome e2 htriv2 c)
        rw [hu1] at heq1
        rw [hu2] at heq2
        simp only [Option.map_some', Option.some.injEq,
          Prod.mk.injEq] at heq1 heq2
        obtain ⟨ho1, hc1⟩ := heq1
        obtain ⟨ho2, hc2⟩ := heq2
        obtain ⟨hueq, hdeq⟩ := hm e2 c u1 d1 u2 d2 hstrip hu1 hu2
        constructor
        · rw [← ho1, ← ho2]
          simp [stripC, hueq]
        · omega
    | var v1 =>
      have hm : ∀ e2 c u1 c1 u2 c2, stripE (.var v1) = stripE e2 →
          m (.var v1) c = some (u1, c1) → m e2 c = some (u2, c2) →
          stripU u1 = stripU u2 ∧ c1 = c2 := by
        intro e2 c u1 c1 u2 c2 hstrip heq1 heq2
        cases e2 with
        | var v2 =>
          simp only [stripE, Expr.var.injEq] at hstrip
          simp only [m, Option.some.injEq, Prod.mk.injEq] at heq1 heq2
          obtain ⟨hu1, hc1⟩ := heq1
          obtain ⟨hu2, hc2⟩ := heq2
          constructor
          · rw [← hu1, ← hu2]
            simp [stripU, hstrip]
          · omega
        | lam p2 b2 => simp [stripE] at hstrip
        | lit l => simp [stripE] at hstrip
        | app f2 a2 => simp [stripE] at hstrip
      refine ⟨hm, ?_, ?_⟩
      · intro e2 k1 k2 c o1 c1 o2 c2 hstrip hK heq1 heq2
        have htriv2 : isTrivial e2 = true := by
          cases e2 <;> first
            | rfl
            | simp [stripE] at hstrip
        rw [t_k_trivial (Expr.var v1) rfl] at heq1
        rw [t_k_trivial e2 htriv2] at heq2
        obtain ⟨⟨u1, d1⟩, hu1⟩ :=
          Option.isSome_iff_exists.mp (m_isSome (.var v1) rfl c)
        obtain ⟨⟨u2, d2⟩, hu2⟩ :=
          Option.isSome_iff_exists.mp (m_isSome e2 htriv2 c)
        rw [hu1] at heq1
        rw [hu2] at heq2
        simp only [Option.map_some', Option.some.injEq,
          Prod.mk.injEq] at heq1 heq2
        obtain ⟨ho1, hc1⟩ := heq1
        obtain ⟨ho2, hc2⟩ := heq2
        obtain ⟨hueq, hdeq⟩ := hm e2 c u1 d1 u2 d2 hstrip hu1 hu2
        constructor
        · rw [← ho1, ← ho2]
          simp [stripC, hueq, hK]
        · omega
      · intro e2 cv c o1 c1 o2 c2 hstrip heq1 heq2
        have htriv2 : isTrivial e2 = true := by
          cases e2 <;> first
            | rfl
            | simp [stripE] at hstrip
        rw [t_c_trivial (Expr.var v1) rfl] at heq1
        rw [t_c_trivial e2 htriv2] at heq2
        obtain ⟨⟨u1, d1⟩, hu1⟩ :=
          Option.isSome_iff_exists.mp (m_isSome (.var v1) rfl c)
        obtain ⟨⟨u2, d2⟩, hu2⟩ :=
          Option.isSome_iff_exists.mp (m_isSome e2 htriv2 c)
        rw [hu1] at heq1
        rw [hu2] at heq2
        simp only [Option.map_some', Option.some.injEq,
          Prod.mk.injEq] at heq1 heq2
        obtain ⟨ho1, hc1⟩ := heq1
        obtain ⟨ho2, hc2⟩ := heq2
        obtain ⟨hueq, hdeq⟩ := hm e2 c u1 d1 u2 d2 hstrip hu1 hu2
        constructor
        · rw [← ho1, ← ho2]
          simp [stripC, hueq]
        · omega
    | lit l1 =>
      have hm : ∀ e2 c u1 c1 u2 c2, stripE (.lit l1) = stripE e2 →
          m (.lit l1) c = some (u1, c1) → m e2 c = some (u2, c2) →
          stripU u1 = stripU u2 ∧ c1 = c2 := by
        intro e2 c u1 c1 u2 c2 hstrip heq1 heq2
        cases e2 with
        | lit l2 =>
          simp only [stripE, Expr.lit.injEq] at hstrip
          simp only [m, Option.some.injEq, Prod.mk.injEq] at heq1 heq2
          obtain ⟨hu1, hc1⟩ := heq1
          obtain ⟨hu2, hc2⟩ := heq2
          constructor
          · rw [← hu1, ← hu2]
            simp [stripU, hstrip]
          · omega
        | lam p2 b2 => simp [stripE] at hstrip
        | var v2 => simp [stripE] at hstrip
        | app f2 a2 => simp [stripE] at hstrip
      refine ⟨hm, ?_, ?_⟩
      · intro e2 k1 k2 c o1 c1 o2 c2 hstrip hK heq1 heq2
        have htriv2 : isTrivial e2 = true := by
          cases e2 <;> first
            | rfl
            | simp [stripE] at hstrip
        rw [t_k_trivial (Expr.lit l1) rfl] at heq1
        rw [t_k_trivial e2 htriv2] at heq2
        obtain ⟨⟨u1, d1⟩, hu1⟩ :=
          Option.isSome_iff_exists.mp (m_isSome (.lit l1) rfl c)
        obtain ⟨⟨u2, d2⟩, hu2⟩ :=
          Option.isSome_iff_exists.mp (m_isSome e2 htriv2 c)
        rw [hu1] at heq1
        rw [hu2] at heq2
        simp only [Option.map_some', Option.some.injEq,
          Prod.mk.injEq] at heq1 heq2
        obtain ⟨ho1, hc1⟩ := heq1
        obtain ⟨ho2, hc2⟩ := heq2
        obtain ⟨hueq, hdeq⟩ := hm e2 c u1 d1 u2 d2 hstrip hu1 hu2
        constructor
        · rw [← ho1, ← ho2]
          simp [stripC, hueq, hK]
        · omega
      · intro e2 cv c o1 c1 o2 c2 hstrip heq1 heq2
        have htriv2 : isTrivial e2 = true := by
          cases e2 <;> first
            | rfl
            | simp [stripE] at hstrip
        rw [t_c_trivial (Expr.lit l1) rfl] at heq1
        rw [t_c_trivial e2 htriv2] at heq2
        obtain ⟨⟨u1, d1⟩, hu1⟩ :=
          Option.isSome_iff_exists.mp (m_isSome (.lit l1) rfl c)
        obtain ⟨⟨u2, d2⟩, hu2⟩ :=
          Option.isSome_iff_exists.mp (m_isSome e2 htriv2 c)
        rw [hu1] at heq1
        rw [hu2] at heq2
        simp only [Option.map_some', Option.some.injEq,
          Prod.mk.injEq] at heq1 heq2
        obtain ⟨ho1, hc1⟩ := heq1
        obtain ⟨ho2, hc2⟩ := heq2
        obtain ⟨hueq, hdeq⟩ := hm e2 c u1 d1 u2 d2 hstrip hu1 hu2
        constructor
        · rw [← ho1, ← ho2]
          simp [stripC, hueq]
        · omega
    | app f1 a1 =>
      have hszf : sizeE f1 ≤ n := by simp [sizeE] at he; omega
      have hsza : sizeE a1 ≤ n := by simp [sizeE] at he; omega
      refine ⟨?_, ?_, ?_⟩
      · intro e2 c u1 c1 u2 c2 hstrip heq1 heq2
        simp [m] at heq1
      · intro e2 k1 k2 c o1 c1 o2 c2 hstrip hK heq1 heq2
        cases e2 with
        | app f2 a2 =>
          simp only [stripE, Expr.app.injEq] at hstrip
          obtain ⟨hsf, hsa⟩ := hstrip
          rw [t_k_app] at heq1 heq2
          obtain ⟨⟨ic1, d1⟩, hA1⟩ := Option.isSome_iff_exists.mp
            (t_k_isSome a1 (mkKLam ⟨c+2, "e"⟩
              (.ucall (.var (.free ⟨c+1, "f"⟩)) (.var (.free ⟨c+2, "e"⟩))
                (mkKLam ⟨c, "rv"⟩ (.kcall k1 (.var (.free ⟨c, "rv"⟩))))))
              (c+3))
          obtain ⟨⟨ic2, d2⟩, hA2⟩ := Option.isSome_iff_exists.mp
            (t_k_isSome a2 (mkKLam ⟨c+2, "e"⟩
              (.ucall (.var (.free ⟨c+1, "f"⟩)) (.var (.free ⟨c+2, "e"⟩))
                (mkKLam ⟨c, "rv"⟩ (.kcall k2 (.var (.free ⟨c, "rv"⟩))))))
              (c+3))
          rw [hA1] at heq1
          rw [hA2] at heq2
          simp only [Option.some_bind] at heq1 heq2
          have hKa : stripK (mkKLam ⟨c+2, "e"⟩
              (.ucall (.var (.free ⟨c+1, "f"⟩)) (.var (.free ⟨c+2, "e"⟩))
                (mkKLam ⟨c, "rv"⟩ (.kcall k1 (.var (.free ⟨c, "rv"⟩)))))) =
              stripK (mkKLam ⟨c+2, "e"⟩
              (.ucall (.var (.free ⟨c+1, "f"⟩)) (.var (.free ⟨c+2, "e"⟩))
                (mkKLam ⟨c, "rv"⟩ (.kcall k2 (.var (.free ⟨c, "rv"⟩)))))) := by
            simp [stripK_mkKLam, stripC, stripU, stripVar, stripFV, hK]
          obtain ⟨hice, hde⟩ := (ih a1 hsza).2.1 a2 _ _ (c+3) ic1 d1 ic2 d2
            hsa hKa hA1 hA2
          subst hde
          have hKf : stripK (mkKLam ⟨c+1, "f"⟩ ic1) =
              stripK (mkKLam ⟨c+1, "f"⟩ ic2) := by
            simp [stripK_mkKLam, hice]
          exact (ih f1 hszf).2.1 f2 _ _ d1 o1 c1 o2 c2 hsf hKf heq1 heq2
        | lam p2 b2 => simp [stripE] at hstrip
        | var v2 => simp [stripE] at hstrip
        | lit l2 => simp [stripE] at hstrip
      · intro e2 cv c o1 c1 o2 c2 hstrip heq1 heq2
        cases e2 with
        | app f2 a2 =>
          simp only [stripE, Expr.app.injEq] at hstrip
          obtain ⟨hsf, hsa⟩ := hstrip
          rw [t_c_app] at heq1 heq2
          obtain ⟨⟨ic1, d1⟩, hA1⟩ := Option.isSome_iff_exists.mp
            (t_k_isSome a1 (mkKLam ⟨c+1, "e"⟩
              (.ucall (.var (.free ⟨c, "f"⟩)) (.var (.free ⟨c+1, "e"⟩))
                (.var (.free cv)))) (c+2))
          obtain ⟨⟨ic2, d2⟩, hA2⟩ := Option.isSome_iff_exists.mp
            (t_k_isSome a2 (mkKLam ⟨c+1, "e"⟩
              (.ucall (.var (.free ⟨c, "f"⟩)) (.var (.free ⟨c+1, "e"⟩))
                (.var (.free cv)))) (c+2))
          rw [hA1] at heq1
          rw [hA2] at heq2
          simp only [Option.some_bind] at heq1 heq2
          obtain ⟨hice, hde⟩ := (ih a1 hsza).2.1 a2 _ _ (c+2) ic1 d1 ic2 d2
            hsa rfl hA1 hA2
          subst hde
          have hKf : stripK (mkKLam ⟨c, "f"⟩ ic1) =
              stripK (mkKLam ⟨c, "f"⟩ ic2) := by
            simp [stripK_mkKLam, hice]
          exact (ih f1 hszf).2.1 f2 _ _ d1 o1 c1 o2 c2 hsf hKf heq1 heq2
        | lam p2 b2 => simp [stripE] at hstrip
        | var v2 => simp [stripE] at hstrip
        | lit l2 => simp [stripE] at hstrip

theorem kernel_mono_aux (n : Nat) :
    ∀ e, sizeE e ≤ n →
      (∀ c u c', m e c = some (u, c') → c ≤ c') ∧
      (∀ k c out c', t_k e k c = some (out, c') → c ≤ c') ∧
      (∀ cv c out c', t_c e cv c = some (out, c') → c ≤ c') := by
  induction n with
  | zero =>
    intro e he
    exfalso
    cases e <;> simp [sizeE] at he
  | succ n ih =>
    intro e he
    cases e with
    | lam p b =>
      have hm : ∀ c u c', m (.lam p b) c = some (u, c') → c ≤ c' := by
        intro c u c' heq
        rw [m_lam] at heq
        obtain ⟨⟨body, c3⟩, hbody⟩ := Option.isSome_iff_exists.mp
          (t_c_isSome (openE 0 ⟨c, p.hint⟩ b) ⟨c+1, "k"⟩ (c+2))
        rw [hbody] at heq
        simp only [Option.map_some', Option.some.injEq, Prod.mk.injEq] at heq
        have hsz : sizeE (openE 0 (⟨c, p.hint⟩ : FreeVar) b) ≤ n := by
          rw [sizeE_openE]
          simp [sizeE] at he
          omega
        have := (ih _ hsz).2.2 ⟨c+1, "k"⟩ (c+2) body c3 hbody
        omega
      refine ⟨hm, ?_, ?_⟩
      · intro k c out c' heq
        rw [t_k_trivial (Expr.lam p b) rfl] at heq
        obtain ⟨⟨u, c2⟩, hu⟩ :=
          Option.isSome_iff_exists.mp (m_isSome (.lam p b) rfl c)
        rw [hu] at heq
        simp only [Option.map_some', Option.some.injEq, Prod.mk.injEq] at heq
        have := hm c u c2 hu
        omega
      · intro cv c out c' heq
        rw [t_c_trivial (Expr.lam p b) rfl] at heq
        obtain ⟨⟨u, c2⟩, hu⟩ :=
          Option.isSome_iff_exists.mp (m_isSome (.lam p b) rfl c)
        rw [hu] at heq
        simp only [Option.map_some', Option.some.injEq, Prod.mk.injEq] at heq
        have := hm c u c2 hu
        omega
    | var v =>
      refine ⟨?_, ?_, ?_⟩
      · intro c u c' heq
        simp only [m, Option.some.injEq, Prod.mk.injEq] at heq
        omega
      · intro k c out c' heq
        rw [t_k_trivial (Expr.var v) rfl] at heq
        simp only [m, Option.map_some', Option.some.injEq,
          Prod.mk.injEq] at heq
        omega
      · intro cv c out c' heq
        rw [t_c_trivial (Expr.var v) rfl] at heq
        simp only [m, Option.map_some', Option.some.injEq,
          Prod.mk.injEq] at heq
        omega
    | lit l =>
      refine ⟨?_, ?_, ?_⟩
      · intro c u c' heq
        simp only [m, Option.some.injEq, Prod.mk.injEq] at heq
        omega
      · intro k c out c' heq
        rw [t_k_trivial (Expr.lit l) rfl] at heq
        simp only [m, Option.map_some', Option.some.injEq,
          Prod.mk.injEq] at heq
        omega
      · intro cv c out c' heq
        rw [t_c_trivial (Expr.lit l) rfl] at heq
        simp only [m, Option.map_some', Option.some.injEq,
          Prod.mk.injEq] at heq
        omega
    | app f a =>
      have hszf : sizeE f ≤ n := by simp [sizeE] at he; omega
      have hsza : sizeE a ≤ n := by simp [sizeE] at he; omega
      refine ⟨?_, ?_, ?_⟩
      · intro c u c' heq
        simp [m] at heq
      · intro k c out c' heq
        rw [t_k_app] at heq
        obtain ⟨⟨ic, c4⟩, hA⟩ := Option.isSome_iff_exists.mp
          (t_k_isSome a (mkKLam ⟨c+2, "e"⟩
            (.ucall (.var (.free ⟨c+1, "f"⟩)) (.var (.free ⟨c+2, "e"⟩))
              (mkKLam ⟨c, "rv"⟩ (.kcall k (.var (.free ⟨c, "rv"⟩))))))
            (c+3))
        rw [hA] at heq
        simp only [Option.some_bind] at heq
        have h1 := (ih a hsza).2.1 _ (c+3) ic c4 hA
        have h2 := (ih f hszf).2.1 _ c4 out c' heq
        omega
      · intro cv c out c' heq
        rw [t_c_app] at heq
        obtain ⟨⟨ic, c4⟩, hA⟩ := Option.isSome_iff_exists.mp
          (t_k_isSome a (mkKLam ⟨c+1, "e"⟩
            (.ucall (.var (.free ⟨c, "f"⟩)) (.var (.free ⟨c+1, "e"⟩))
              (.var (.free cv)))) (c+2))
        rw [hA] at heq
        simp only [Option.some_bind] at heq
        have h1 := (ih a hsza).2.1 _ (c+2) ic c4 hA
        have h2 := (ih f hszf).2.1 _ c4 out c' heq
        omega

theorem t_k_mono (e : Expr) (k : KExpr) (c : Nat) (out : CCall) (c' : Nat)
    (h : t_k e k c = some (out, c')) : c ≤ c' :=
  (kernel_mono_aux (sizeE e) e le_rfl).2.1 k c out c' h

theorem shiftIds_inj (c d : Nat) : Function.Injective (shiftIds c d) := by
  intro a b hab
  simp only [shiftIds] at hab
  split_ifs at hab <;> omega

theorem shiftIds_fix (c d i : Nat) (h : i < c) : shiftIds c d i = i := by
  simp [shiftIds, h]

theorem mapFV_shift (c d i : Nat) (h : c ≤ i) (s : String) :
    mapFV (shiftIds c d) ⟨i, s⟩ = ⟨i + d, s⟩ := by
  simp [mapFV, shiftIds]
  omega

theorem mapK_mkKLam (r : Nat → Nat) (hr : Function.Injective r)
    (x : FreeVar) (b : CCall) :
    mapK r (mkKLam x b) = mkKLam (mapFV r x) (mapC r b) := by
  simp [mkKLam, mapK, mapC_closeC r hr]

theorem mapU_mkULam (r : Nat → Nat) (hr : Function.Injective r)
    (p k : FreeVar) (b : CCall) :
    mapU r (mkULam p k b) = mkULam (mapFV r p) (mapFV r k) (mapC r b) := by
  simp [mkULam, mapU, mapC_closeC r hr]

theorem kernel_shift_aux (c d : Nat) (n : Nat) :
    ∀ e, sizeE e ≤ n →
      (∀ c0, c ≤ c0 →
        m (mapE (shiftIds c d) e) (c0 + d) =
          (m e c0).map fun p => (mapU (shiftIds c d) p.1, p.2 + d)) ∧
      (∀ k c0, c ≤ c0 →
        t_k (mapE (shiftIds c d) e) (mapK (shiftIds c d) k) (c0 + d) =
          (t_k e k c0).map fun p => (mapC (shiftIds c d) p.1, p.2 + d)) ∧
      (∀ cv c0, c ≤ c0 →
        t_c (mapE (shiftIds c d) e) (mapFV (shiftIds c d) cv) (c0 + d) =
          (t_c e cv c0).map fun p => (mapC (shiftIds c d) p.1, p.2 + d)) := by
  induction n with
  | zero =>
    intro e he
    exfalso
    cases e <;> simp [sizeE] at he
  | succ n ih =>
    intro e he
    cases e with
    | lam p b =>
      have hm : ∀ c0, c ≤ c0 →
          m (mapE (shiftIds c d) (.lam p b)) (c0 + d) =
            (m (.lam p b) c0).map
              fun q => (mapU (shiftIds c d) q.1, q.2 + d) := by
        intro c0 hc0
        have hsz : sizeE (openE 0 (⟨c0, p.hint⟩ : FreeVar) b) ≤ n := by
          rw [sizeE_openE]
          simp [sizeE] at he
          omega
        obtain ⟨⟨body, c3⟩, hbody⟩ := Option.isSome_iff_exists.mp
          (t_c_isSome (openE 0 ⟨c0, p.hint⟩ b) ⟨c0+1, "k"⟩ (c0+2))
        have hIH := (ih _ hsz).2.2 ⟨c0+1, "k"⟩ (c0+2) (by omega)
        rw [hbody, mapE_openE, mapFV_shift c d c0 hc0 p.hint,
          mapFV_shift c d (c0+1) (by omega) "k"] at hIH
        simp only [Option.map_some'] at hIH
        simp only [show c0+2+d = c0+d+2 from by omega,
          show c0+1+d = c0+d+1 from by omega] at hIH
        show m (Expr.lam (mapFV (shiftIds c d) p) (mapE (shiftIds c d) b))
            (c0 + d) = _
        rw [m_lam, m_lam, hbody]
        rw [show (mapFV (shiftIds c d) p).hint = p.hint from rfl]
        rw [hIH]
        simp only [Option.map_some', Option.some.injEq, Prod.mk.injEq]
        constructor
        · rw [mapU_mkULam _ (shiftIds_inj c d),
            mapFV_shift c d c0 hc0 p.hint,
            mapFV_shift c d (c0+1) (by omega) "k"]
          simp only [show c0+1+d = c0+d+1 from by omega]
        · trivial
      refine ⟨hm, ?_, ?_⟩
      · intro k c0 hc0
        have hm' := hm c0 hc0
        obtain ⟨⟨u, c2⟩, hu⟩ :=
          Option.isSome_iff_exists.mp (m_isSome (.lam p b) rfl c0)
        rw [hu] at hm'
        simp only [Option.map_some'] at hm'
        rw [show mapE (shiftIds c d) (Expr.lam p b) =
            Expr.lam (mapFV (shiftIds c d) p) (mapE (shiftIds c d) b)
            from rfl] at hm' ⊢
        rw [t_k_trivial (Expr.lam (mapFV (shiftIds c d) p)
            (mapE (shiftIds c d) b)) rfl,
          t_k_trivial (Expr.lam p b) rfl, hu, hm']
        simp [mapC]
      · intro cv c0 hc0
        have hm' := hm c0 hc0
        obtain ⟨⟨u, c2⟩, hu⟩ :=
          Option.isSome_iff_exists.mp (m_isSome (.lam p b) rfl c0)
        rw [hu] at hm'
        simp only [Option.map_some'] at hm'
        rw [show mapE (shiftIds c d) (Expr.lam p b) =
            Expr.lam (mapFV (shiftIds c d) p) (mapE (shiftIds c d) b)
            from rfl] at hm' ⊢
        rw [t_c_trivial (Expr.lam (mapFV (shiftIds c d) p)
            (mapE (shiftIds c d) b)) rfl,
          t_c_trivial (Expr.lam p b) rfl, hu, hm']
        simp [mapC, mapK, mapVar]
    | var v =>
      have hm : ∀ c0, c ≤ c0 →
          m (mapE (shiftIds c d) (.var v)) (c0 + d) =
            (m (.var v) c0).map
              fun q => (mapU (shiftIds c d) q.1, q.2 + d) := by
        intro c0 hc0
        simp [mapE, m, mapU]
      refine ⟨hm, ?_, ?_⟩
      · intro k c0 hc0
        rw [show mapE (shiftIds c d) (Expr.var v) =
            Expr.var (mapVar (shiftIds c d) v) from rfl]
        rw [t_k_trivial (Expr.var (mapVar (shiftIds c d) v)) rfl,
          t_k_trivial (Expr.var v) rfl]
        simp [m, mapC, mapU]
      · intro cv c0 hc0
        rw [show mapE (shiftIds c d) (Expr.var v) =
            Expr.var (mapVar (shiftIds c d) v) from rfl]
        rw [t_c_trivial (Expr.var (mapVar (shiftIds c d) v)) rfl,
          t_c_trivial (Expr.var v) rfl]
        simp [m, mapC, mapU, mapK, mapVar]
    | lit l =>
      have hm : ∀ c0, c ≤ c0 →
          m (mapE (shiftIds c d) (.lit l)) (c0 + d) =
            (m (.lit l) c0).map
              fun q => (mapU (shiftIds c d) q.1, q.2 + d) := by
        intro c0 hc0
        simp [mapE, m, mapU]
      refine ⟨hm, ?_, ?_⟩
      · intro k c0 hc0
        rw [show mapE (shiftIds c d) (Expr.lit l) =
            Expr.lit l from rfl]
        simp only [t_k_trivial (Expr.lit l) rfl]
        simp [m, mapC, mapU]
      · intro cv c0 hc0
        rw [show mapE (shiftIds c d) (Expr.lit l) =
            Expr.lit l from rfl]
        simp only [t_c_trivial (Expr.lit l) rfl]
        simp [m, mapC, mapU, mapK, mapVar]
    | app f a =>
      have hszf : sizeE f ≤ n := by simp [sizeE] at he; omega
      have hsza : sizeE a ≤ n := by simp [sizeE] at he; omega
      refine ⟨?_, ?_, ?_⟩
      · intro c0 hc0
        simp [mapE, m]
      · intro k c0 hc0
        obtain ⟨⟨ic, c4⟩, hA⟩ := Option.isSome_iff_exists.mp
          (t_k_isSome a (mkKLam ⟨c0+2, "e"⟩
            (.ucall (.var (.free ⟨c0+1, "f"⟩)) (.var (.free ⟨c0+2, "e"⟩))
              (mkKLam ⟨c0, "rv"⟩ (.kcall k (.var (.free ⟨c0, "rv"⟩))))))
            (c0+3))
        have hc4 := t_k_mono _ _ _ _ _ hA
        have hIHa := (ih a hsza).2.1 (mkKLam ⟨c0+2, "e"⟩
            (.ucall (.var (.free ⟨c0+1, "f"⟩)) (.var (.free ⟨c0+2, "e"⟩))
              (mkKLam ⟨c0, "rv"⟩ (.kcall k (.var (.free ⟨c0, "rv"⟩))))))
            (c0+3) (by omega)
        rw [hA] at hIHa
        simp only [Option.map_some'] at hIHa
        have hKa : mapK (shiftIds c d) (mkKLam ⟨c0+2, "e"⟩
            (.ucall (.var (.free ⟨c0+1, "f"⟩)) (.var (.free ⟨c0+2, "e"⟩))
              (mkKLam ⟨c0, "rv"⟩ (.kcall k (.var (.free ⟨c0, "rv"⟩)))))) =
            mkKLam ⟨c0+d+2, "e"⟩
              (.ucall (.var (.free ⟨c0+d+1, "f"⟩))
                (.var (.free ⟨c0+d+2, "e"⟩))
                (mkKLam ⟨c0+d, "rv"⟩ (.kcall (mapK (shiftIds c d) k)
                  (.var (.free ⟨c0+d, "rv"⟩))))) := by
          rw [mapK_mkKLam _ (shiftIds_inj c d),
            mapFV_shift c d (c0+2) (by omega) "e"]
          simp only [mapC, mapU, mapVar,
            mapK_mkKLam _ (shiftIds_inj c d),
            mapFV_shift c d (c0+1) (by omega) "f",
            mapFV_shift c d (c0+2) (by omega) "e",
            mapFV_shift c d c0 hc0 "rv",
            show c0+1+d = c0+d+1 from by omega,
            show c0+2+d = c0+d+2 from by omega]
        rw [hKa] at hIHa
        have hKf : mapK (shiftIds c d) (mkKLam ⟨c0+1, "f"⟩ ic) =
            mkKLam ⟨c0+d+1, "f"⟩ (mapC (shiftIds c d) ic) := by
          rw [mapK_mkKLam _ (shiftIds_inj c d),
            mapFV_shift c d (c0+1) (by omega) "f"]
          simp only [show c0+1+d = c0+d+1 from by omega]
        have hIHf := (ih f hszf).2.1 (mkKLam ⟨c0+1, "f"⟩ ic) c4 (by omega)
        rw [hKf] at hIHf
        show t_k (.app (mapE (shiftIds c d) f) (mapE (shiftIds c d) a))
            (mapK (shiftIds c d) k) (c0 + d) = _
        rw [t_k_app, t_k_app, hA]
        simp only [Option.some_bind]
        simp only [show c0+d+3 = c0+3+d from by omega]
        rw [hIHa]
        simp only [Option.some_bind]
        exact hIHf
      · intro cv c0 hc0
        obtain ⟨⟨ic, c4⟩, hA⟩ := Option.isSome_iff_exists.mp
          (t_k_isSome a (mkKLam ⟨c0+1, "e"⟩
            (.ucall (.var (.free ⟨c0, "f"⟩)) (.var (.free ⟨c0+1, "e"⟩))
              (.var (.free cv)))) (c0+2))
        have hc4 := t_k_mono _ _ _ _ _ hA
        have hIHa := (ih a hsza).2.1 (mkKLam ⟨c0+1, "e"⟩
            (.ucall (.var (.free ⟨c0, "f"⟩)) (.var (.free ⟨c0+1, "e"⟩))
              (.var (.free cv)))) (c0+2) (by omega)
        rw [hA] at hIHa
        simp only [Option.map_some'] at hIHa
        have hKa : mapK (shiftIds c d) (mkKLam ⟨c0+1, "e"⟩
            (.ucall (.var (.free ⟨c0, "f"⟩)) (.var (.free ⟨c0+1, "e"⟩))
              (.var (.free cv)))) =
            mkKLam ⟨c0+d+1, "e"⟩
              (.ucall (.var (.free ⟨c0+d, "f"⟩))
                (.var (.free ⟨c0+d+1, "e"⟩))
                (.var (.free (mapFV (shiftIds c d) cv)))) := by
          rw [mapK_mkKLam _ (shiftIds_inj c d),
            mapFV_shift c d (c0+1) (by omega) "e"]
          simp only [mapC, mapU, mapK, mapVar,
            mapFV_shift c d c0 hc0 "f",
            mapFV_shift c d (c0+1) (by omega) "e",
            show c0+1+d = c0+d+1 from by omega]
        rw [hKa] at hIHa
        have hKf : mapK (shiftIds c d) (mkKLam ⟨c0, "f"⟩ ic) =
            mkKLam ⟨c0+d, "f"⟩ (mapC (shiftIds c d) ic) := by
          rw [mapK_mkKLam _ (shiftIds_inj c d),
            mapFV_shift c d c0 hc0 "f"]
        have hIHf := (ih f hszf).2.1 (mkKLam ⟨c0, "f"⟩ ic) c4 (by omega)
        rw [hKf] at hIHf
        show t_c (.app (mapE (shiftIds c d) f) (mapE (shiftIds c d) a))
            (mapFV (shiftIds c d) cv) (c0 + d) = _
        rw [t_c_app, t_c_app, hA]
        simp only [Option.some_bind]
        simp only [show c0+d+2 = c0+2+d from by omega]
        rw [hIHa]
        simp only [Option.some_bind]
        exact hIHf

mutual

theorem atomicArgsU_true (u : UExpr) : atomicArgsU u = true := by
  cases u with
  | lam p k b =>
    have := atomicArgsC_true b
    simp [atomicArgsU, this]
  | var v => simp [atomicArgsU]
  | lit l => simp [atomicArgsU]

theorem atomicArgsK_true (k : KExpr) : atomicArgsK k = true := by
  cases k with
  | lam p b =>
    have := atomicArgsC_true b
    simp [atomicArgsK, this]
  | var v => simp [atomicArgsK]
  | lit l => simp [atomicArgsK]

theorem atomicArgsC_true (c : CCall) : atomicArgsC c = true := by
  cases c with
  | ucall f v k =>
    have h1 := atomicArgsU_true f
    have h2 := atomicArgsU_true v
    have h3 := atomicArgsK_true k
    cases v <;> simp [atomicArgsC, h1, h2, h3]
  | kcall f v =>
    have h1 := atomicArgsK_true f
    have h2 := atomicArgsU_true v
    cases v <;> simp [atomicArgsC, h1, h2]

end

theorem t_k_app_on_vars (fv av hv : FreeVar) (c : Nat) :
    t_k (.app (.var (.free fv)) (.var (.free av))) (.var (.free hv)) c =
      some (.kcall
        (mkKLam ⟨c+1, "f"⟩ (.kcall
          (mkKLam ⟨c+2, "e"⟩ (.ucall (.var (.free ⟨c+1, "f"⟩))
            (.var (.free ⟨c+2, "e"⟩))
            (mkKLam ⟨c, "rv"⟩ (.kcall (.var (.free hv))
              (.var (.free ⟨c, "rv"⟩))))))
          (.var (.free av))))
        (.var (.free fv)), c+3) := by
  rw [t_k_app, t_k_trivial (Expr.var (Var.free av)) rfl]
  simp only [m, Option.map_some', Option.some_bind]
  rw [t_k_trivial (Expr.var (Var.free fv)) rfl]
  simp only [m, Option.map_some']

theorem t_k_identity (x hv : FreeVar) (c : Nat) :
    t_k (.lam x (.var (.bound 0))) (.var (.free hv)) c =
      some (.kcall (.var (.free hv))
        (mkULam ⟨c, x.hint⟩ ⟨c+1, "k"⟩
          (.kcall (.var (.free ⟨c+1, "k"⟩)) (.var (.free ⟨c, x.hint⟩)))),
        c+2) := by
  rw [t_k_trivial (Expr.lam x (.var (.bound 0))) rfl, m_lam]
  rw [show openE 0 (⟨c, x.hint⟩ : FreeVar) (.var (.bound 0)) =
    Expr.var (.free ⟨c, x.hint⟩) from by simp [openE]]
  rw [t_c_trivial (Expr.var (.free ⟨c, x.hint⟩)) rfl]
  simp only [m, Option.map_some']

theorem alpha_stability_le (e1 e2 : Expr) (halt : KExpr) (c1 c2 c1' c2' : Nat)
    (o1 o2 : CCall) (hc : c1 ≤ c2) (haeq : stripE e1 = stripE e2)
    (hb1 : below (fvE e1) c1) (hh1 : below (fvK halt) c1)
    (heq1 : t_k e1 halt c1 = some (o1, c1'))
    (heq2 : t_k e2 halt c2 = some (o2, c2')) :
    stripC o1 = stripC o2 := by
  have hfix_e : ∀ i ∈ fvE e1, shiftIds c1 (c2 - c1) i = i :=
    fun i hi => shiftIds_fix _ _ _ (hb1 i hi)
  have hfix_h : ∀ i ∈ fvK halt, shiftIds c1 (c2 - c1) i = i :=
    fun i hi => shiftIds_fix _ _ _ (hh1 i hi)
  have hshift := (kernel_shift_aux c1 (c2 - c1) (sizeE e1) e1 le_rfl).2.1
    halt c1 le_rfl
  rw [heq1] at hshift
  simp only [Option.map_some'] at hshift
  rw [show c1 + (c2 - c1) = c2 from by omega] at hshift
  have hstrip1 : stripE (mapE (shiftIds c1 (c2 - c1)) e1) = stripE e2 := by
    rw [stripE_mapE _ _ hfix_e, haeq]
  have hstripK : stripK (mapK (shiftIds c1 (c2 - c1)) halt) = stripK halt :=
    stripK_mapK _ _ hfix_h
  obtain ⟨hso, _⟩ :=
    (kernel_congr_aux (sizeE (mapE (shiftIds c1 (c2 - c1)) e1))
      (mapE (shiftIds c1 (c2 - c1)) e1) le_rfl).2.1 e2 _ halt c2 _ _ o2 c2'
      hstrip1 hstripK hshift heq2
  have hfv := (kernel_fv_aux (sizeE e1) e1 le_rfl).2.1 halt c1 o1 c1'
    heq1 hb1 hh1
  have hmap : stripC (mapC (shiftIds c1 (c2 - c1)) o1) = stripC o1 :=
    stripC_mapC _ _ (by
      intro i hi
      rw [hfv.2] at hi
      rcases Finset.mem_union.1 hi with h | h
      · exact shiftIds_fix _ _ _ (hb1 i h)
      · exact shiftIds_fix _ _ _ (hh1 i h))
  rw [← hmap, hso]

/-- Claim C1 (counterexample): for the concrete free source variables `f`
(id 0) and `a` (id 1), halt the continuation variable with id 2, and fresh
counter 3, the kernel's output on `App(f, a)` is not alpha-equivalent to
`UCall(U.Var f, U.Var a, K.Lam(rv, KCall(K.Var halt_id, U.Var rv)))`: the
kernel emits the administrative-redex form instead. -/
theorem c1_simple_application_counterexample :
    (t_k (.app (.var (.free ⟨0, "f"⟩)) (.var (.free ⟨1, "a"⟩)))
        (.var (.free ⟨2, "halt"⟩)) 3 =
      some (.kcall
        (mkKLam ⟨4, "f"⟩ (.kcall
          (mkKLam ⟨5, "e"⟩ (.ucall (.var (.free ⟨4, "f"⟩))
            (.var (.free ⟨5, "e"⟩))
            (mkKLam ⟨3, "rv"⟩ (.kcall (.var (.free ⟨2, "halt"⟩))
              (.var (.free ⟨3, "rv"⟩))))))
          (.var (.free ⟨1, "a"⟩))))
        (.var (.free ⟨0, "f"⟩)), 6)) ∧
    ¬ aeqC (.kcall
        (mkKLam ⟨4, "f"⟩ (.kcall
          (mkKLam ⟨5, "e"⟩ (.ucall (.var (.free ⟨4, "f"⟩))
            (.var (.free ⟨5, "e"⟩))
            (mkKLam ⟨3, "rv"⟩ (.kcall (.var (.free ⟨2, "halt"⟩))
              (.var (.free ⟨3, "rv"⟩))))))
          (.var (.free ⟨1, "a"⟩))))
        (.var (.free ⟨0, "f"⟩)))
      (.ucall (.var (.free ⟨0, "f"⟩)) (.var (.free ⟨1, "a"⟩))
        (mkKLam ⟨3, "rv"⟩ (.kcall (.var (.free ⟨2, "halt"⟩))
          (.var (.free ⟨3, "rv"⟩))))) :=
  ⟨t_k_app_on_vars ⟨0, "f"⟩ ⟨1, "a"⟩ ⟨2, "halt"⟩ 3, by decide⟩

/-- Claim C1 (amended): for free source variables `f` and `a` and halt the
continuation variable `K.Var(halt_id)`, the kernel's output on `App(f, a)`
is the administrative form `KCall(K.Lam(fv, KCall(K.Lam(ev, UCall(U.Var fv,
U.Var ev, K.Lam(rv, KCall(K.Var halt_id, U.Var rv)))), U.Var a)), U.Var f)`
— rendered `((lambda (fv) ((lambda (ev) (fv ev (lambda (rv) (halt_id rv))))
a)) f)` — and hence alpha-equivalent to that shape, not to
`(f a (lambda (rv) (halt_id rv)))`: the kernel performs no administrative
reduction. -/
theorem c1_simple_application_admin_form (f a halt : FreeVar) (c : Nat) :
    t_k (.app (.var (.free f)) (.var (.free a))) (.var (.free halt)) c =
      some (.kcall
        (mkKLam ⟨c+1, "f"⟩ (.kcall
          (mkKLam ⟨c+2, "e"⟩ (.ucall (.var (.free ⟨c+1, "f"⟩))
            (.var (.free ⟨c+2, "e"⟩))
            (mkKLam ⟨c, "rv"⟩ (.kcall (.var (.free halt))
              (.var (.free ⟨c, "rv"⟩))))))
          (.var (.free a))))
        (.var (.free f)), c+3) :=
  t_k_app_on_vars f a halt c

/-- Claim C2: on `App(f, a)` under a reified continuation `k`, `t_k` first
builds `cont_r = K.Lam(rv, KCall(k, U.Var rv))` from a fresh `rv`, then
allocates fresh `fv` and `ev`, translates the argument and then the function
position, yielding
`T_k(f, K.Lam(fv, T_k(a, K.Lam(ev, UCall(U.Var fv, U.Var ev, cont_r)))))`;
and on `App(f, a)` under a continuation variable `cv`, `t_c` produces the
same shape with the bare `K.Var cv` in place of `cont_r` — no `rv`
reification continuation is built. -/
theorem c2_app_translation_equations (f a : Expr) (k : KExpr) (cv : FreeVar)
    (c : Nat) :
    (t_k (.app f a) k c =
      (let rvc := fresh "rv" c
       let cont := mkKLam rvc.1 (.kcall k (.var (.free rvc.1)))
       let fvc := fresh "f" rvc.2
       let evc := fresh "e" fvc.2
       (t_k a (mkKLam evc.1 (.ucall (.var (.free fvc.1))
           (.var (.free evc.1)) cont)) evc.2).bind
         fun ic => t_k f (mkKLam fvc.1 ic.1) ic.2)) ∧
    (t_c (.app f a) cv c =
      (let fvc := fresh "f" c
       let evc := fresh "e" fvc.2
       (t_k a (mkKLam evc.1 (.ucall (.var (.free fvc.1))
           (.var (.free evc.1)) (.var (.free cv)))) evc.2).bind
         fun ic => t_k f (mkKLam fvc.1 ic.1) ic.2)) :=
  ⟨t_k_app f a k c, t_c_app f a cv c⟩

/-- Claim C3: free-variable conservation.  When every identifier free in the
surface expression `e` and in the halt continuation lies below the fresh
counter `c` (which the global uniqueness of `FreeVar::fresh_named`
guarantees), the set of free identifiers of the call the kernel produces
equals the union of those of `e` and of `halt`; in particular every
identifier the kernel introduces (ids `≥ c`, hints `rv`, `f`, `e`, `k`)
occurs only bound in the output, never free. -/
theorem c3_free_variable_conservation (e : Expr) (halt : KExpr)
    (c c' : Nat) (out : CCall)
    (hE : ∀ i ∈ fvE e, i < c) (hH : ∀ i ∈ fvK halt, i < c)
    (h : t_k e halt c = some (out, c')) :
    fvC out = fvE e ∪ fvK halt ∧ ∀ i ∈ fvC out, i < c := by
  have hmain := (kernel_fv_aux (sizeE e) e le_rfl).2.1 halt c out c' h hE hH
  refine ⟨hmain.2, ?_⟩
  intro i hi
  rw [hmain.2] at hi
  rcases Finset.mem_union.1 hi with hh | hh
  · exact hE i hh
  · exact hH i hh

/-- Witness for C3 at the application of two free variables under a free
halt variable. -/
theorem c3_free_variable_conservation_witness :
    (∀ i ∈ fvE (Expr.app (.var (.free ⟨0, "x"⟩)) (.var (.free ⟨1, "y"⟩))),
      i < 3) ∧
    (∀ i ∈ fvK (KExpr.var (.free ⟨2, "h"⟩)), i < 3) ∧
    (fvC (.kcall
        (mkKLam ⟨4, "f"⟩ (.kcall
          (mkKLam ⟨5, "e"⟩ (.ucall (.var (.free ⟨4, "f"⟩))
            (.var (.free ⟨5, "e"⟩))
            (mkKLam ⟨3, "rv"⟩ (.kcall (.var (.free ⟨2, "h"⟩))
              (.var (.free ⟨3, "rv"⟩))))))
          (.var (.free ⟨1, "y"⟩))))
        (.var (.free ⟨0, "x"⟩))) =
      fvE (Expr.app (.var (.free ⟨0, "x"⟩)) (.var (.free ⟨1, "y"⟩))) ∪
        fvK (KExpr.var (.free ⟨2, "h"⟩)) ∧
      ∀ i ∈ fvC (.kcall
        (mkKLam ⟨4, "f"⟩ (.kcall
          (mkKLam ⟨5, "e"⟩ (.ucall (.var (.free ⟨4, "f"⟩))
            (.var (.free ⟨5, "e"⟩))
            (mkKLam ⟨3, "rv"⟩ (.kcall (.var (.free ⟨2, "h"⟩))
              (.var (.free ⟨3, "rv"⟩))))))
          (.var (.free ⟨1, "y"⟩))))
        (.var (.free ⟨0, "x"⟩))), i < 3) :=
  ⟨by decide, by decide,
    c3_free_variable_conservation _ _ 3 6 _ (by decide) (by decide)
      (t_k_app_on_vars ⟨0, "x"⟩ ⟨1, "y"⟩ ⟨2, "h"⟩ 3)⟩

/-- Claim C4: for the identity function `Lam(x. x)` and halt the continuation
variable `K.Var(halt_id)`, the kernel's output is alpha-equivalent to
`KCall(K.Var halt_id, U.Lam(x, k, KCall(K.Var k, U.Var x)))`, i.e. the
rendered shape `(halt_id (lambda (x k) (k x)))`. -/
theorem c4_identity_translation (x k halt : FreeVar) (c : Nat)
    (hxk : x.id ≠ k.id) :
    ∃ out : CCall, t_k (.lam x (.var (.bound 0))) (.var (.free halt)) c =
        some (out, c+2) ∧
      aeqC out (.kcall (.var (.free halt))
        (mkULam x k (.kcall (.var (.free k)) (.var (.free x))))) := by
  refine ⟨_, t_k_identity x halt c, ?_⟩
  show stripC _ = stripC _
  simp [stripC, stripK, stripU, stripVar, stripFV, mkULam, closeC, closeK,
    closeU, hxk, show c ≠ c + 1 from by omega]

/-- Witness for C4 at concrete identifiers. -/
theorem c4_identity_translation_witness :
    ((⟨0, "x"⟩ : FreeVar).id ≠ (⟨1, "k"⟩ : FreeVar).id) ∧
    (∃ out : CCall,
      t_k (.lam ⟨0, "x"⟩ (.var (.bound 0))) (.var (.free ⟨2, "h"⟩)) 3 =
        some (out, 5) ∧
      aeqC out (.kcall (.var (.free ⟨2, "h"⟩))
        (mkULam ⟨0, "x"⟩ ⟨1, "k"⟩
          (.kcall (.var (.free ⟨1, "k"⟩)) (.var (.free ⟨0, "x"⟩)))))) :=
  ⟨by decide, c4_identity_translation ⟨0, "x"⟩ ⟨1, "k"⟩ ⟨2, "h"⟩ 3 (by decide)⟩

/-- Claim C5: alpha-stability.  For alpha-equivalent surface expressions
`e₁ ≡α e₂` and a halt continuation, runs of the kernel on `(e₁, halt)` and
`(e₂, halt)` — even started at different fresh counters, provided each
counter is ahead of all identifiers of its input, as the global fresh-name
generator guarantees — produce alpha-equivalent calls: the identities of the
fresh names the kernel introduces do not affect the output's
alpha-equivalence class. -/
theorem c5_alpha_stability (e1 e2 : Expr) (halt : KExpr)
    (c1 c2 c1' c2' : Nat) (o1 o2 : CCall)
    (haeq : aeqE e1 e2)
    (hb1 : ∀ i ∈ fvE e1, i < c1) (hh1 : ∀ i ∈ fvK halt, i < c1)
    (hb2 : ∀ i ∈ fvE e2, i < c2) (hh2 : ∀ i ∈ fvK halt, i < c2)
    (h1 : t_k e1 halt c1 = some (o1, c1'))
    (h2 : t_k e2 halt c2 = some (o2, c2')) :
    aeqC o1 o2 := by
  rcases le_total c1 c2 with hc | hc
  · exact alpha_stability_le e1 e2 halt c1 c2 c1' c2' o1 o2 hc haeq
      hb1 hh1 h1 h2
  · exact (alpha_stability_le e2 e1 halt c2 c1 c2' c1' o2 o1 hc
      (Eq.symm haeq) hb2 hh2 h2 h1).symm

/-- Witness for C5: two alpha-equivalent identity lambdas with different
binder identities and hints, translated at different counters. -/
theorem c5_alpha_stability_witness :
    aeqE (.lam ⟨0, "x"⟩ (.var (.bound 0))) (.lam ⟨9, "y"⟩ (.var (.bound 0))) ∧
    (∀ i ∈ fvE (Expr.lam ⟨0, "x"⟩ (.var (.bound 0))), i < 2) ∧
    (∀ i ∈ fvK (KExpr.var (.free ⟨1, "h"⟩)), i < 2) ∧
    (∀ i ∈ fvE (Expr.lam ⟨9, "y"⟩ (.var (.bound 0))), i < 10) ∧
    (∀ i ∈ fvK (KExpr.var (.free ⟨1, "h"⟩)), i < 10) ∧
    aeqC
      (.kcall (.var (.free ⟨1, "h"⟩))
        (mkULam ⟨2, "x"⟩ ⟨3, "k"⟩
          (.kcall (.var (.free ⟨3, "k"⟩)) (.var (.free ⟨2, "x"⟩)))))
      (.kcall (.var (.free ⟨1, "h"⟩))
        (mkULam ⟨10, "y"⟩ ⟨11, "k"⟩
          (.kcall (.var (.free ⟨11, "k"⟩)) (.var (.free ⟨10, "y"⟩))))) :=
  ⟨by decide, by decide, by decide, by decide, by decide,
    c5_alpha_stability (.lam ⟨0, "x"⟩ (.var (.bound 0)))
      (.lam ⟨9, "y"⟩ (.var (.bound 0))) (.var (.free ⟨1, "h"⟩))
      2 10 4 12 _ _ (by decide) (by decide) (by decide) (by decide)
      (by decide) (t_k_identity ⟨0, "x"⟩ ⟨1, "h"⟩ 2)
      (t_k_identity ⟨9, "y"⟩ ⟨1, "h"⟩ 10)⟩

/-- Claim C6: the atomic translation `m` signals a fatal, non-recoverable
error (`unreachable!()`, modelled as `none`) on every `App` node, and this
branch is unreachable from the kernel: `t_k` and `t_c` invoke `m` only on
`Var`, `Lit` or `Lam` inputs, so they succeed on every surface expression
and no `none` ever escapes. -/
theorem c6_m_app_unreachable :
    (∀ (f a : Expr) (c : Nat), m (.app f a) c = none) ∧
    (∀ (e : Expr) (k : KExpr) (c : Nat), (t_k e k c).isSome = true) ∧
    (∀ (e : Expr) (cv : FreeVar) (c : Nat), (t_c e cv c).isSome = true) :=
  ⟨fun f a c => by simp [m], fun e k c => t_k_isSome e k c,
    fun e cv c => t_c_isSome e cv c⟩

/-- Claim C7: lowering is a pure structural projection — `U.Lam` to `LamTwo`,
`K.Lam` to `LamOne`, `UCall` to `CallTwo`, `KCall` to `CallOne`, variables
and literals to themselves, reusing the binder patterns verbatim with no
fresh names — and it maps alpha-equivalent CPS terms to alpha-equivalent
flat terms. -/
theorem c7_lowering_structural_alpha :
    (∀ (p k : FreeVar) (b : CCall),
      (UExpr.lam p k b).into_fexpr = .lamTwo p k b.into_fexpr) ∧
    (∀ v : Var, (UExpr.var v).into_fexpr = .var v) ∧
    (∀ l : Literal, (UExpr.lit l).into_fexpr = .lit l) ∧
    (∀ (p : FreeVar) (b : CCall),
      (KExpr.lam p b).into_fexpr = .lamOne p b.into_fexpr) ∧
    (∀ v : Var, (KExpr.var v).into_fexpr = .var v) ∧
    (∀ l : Literal, (KExpr.lit l).into_fexpr = .lit l) ∧
    (∀ (f v : UExpr) (c : KExpr), (CCall.ucall f v c).into_fexpr =
      .callTwo f.into_fexpr v.into_fexpr c.into_fexpr) ∧
    (∀ (f : KExpr) (v : UExpr), (CCall.kcall f v).into_fexpr =
      .callOne f.into_fexpr v.into_fexpr) ∧
    (∀ x y : CCall, aeqC x y → aeqF x.into_fexpr y.into_fexpr) ∧
    (∀ x y : UExpr, aeqU x y → aeqF x.into_fexpr y.into_fexpr) ∧
    (∀ x y : KExpr, aeqK x y → aeqF x.into_fexpr y.into_fexpr) := by
  refine ⟨fun p k b => by simp [UExpr.into_fexpr],
    fun v => by simp [UExpr.into_fexpr],
    fun l => by simp [UExpr.into_fexpr],
    fun p b => by simp [KExpr.into_fexpr],
    fun v => by simp [KExpr.into_fexpr],
    fun l => by simp [KExpr.into_fexpr],
    fun f v c => by simp [CCall.into_fexpr],
    fun f v => by simp [CCall.into_fexpr], ?_, ?_, ?_⟩
  · intro x y h
    show stripF _ = stripF _
    rw [stripF_into_fexprC, stripF_into_fexprC,
      show stripC x = stripC y from h]
  · intro x y h
    show stripF _ = stripF _
    rw [stripF_into_fexprU, stripF_into_fexprU,
      show stripU x = stripU y from h]
  · intro x y h
    show stripF _ = stripF _
    rw [stripF_into_fexprK, stripF_into_fexprK,
      show stripK x = stripK y from h]

/-- Witness for C7: two alpha-equivalent calls (same shape, different binder
and hint data) lower to alpha-equivalent flat expressions. -/
theorem c7_lowering_structural_alpha_witness :
    aeqC (.kcall (mkKLam ⟨0, "a"⟩ (.kcall (.var (.bound 0)) (.lit (1 : Nat))))
        (.lit (2 : Nat)))
      (.kcall (mkKLam ⟨7, "b"⟩ (.kcall (.var (.bound 0)) (.lit (1 : Nat))))
        (.lit (2 : Nat))) ∧
    aeqF (CCall.into_fexpr
        (.kcall (mkKLam ⟨0, "a"⟩ (.kcall (.var (.bound 0)) (.lit (1 : Nat))))
          (.lit (2 : Nat))))
      (CCall.into_fexpr
        (.kcall (mkKLam ⟨7, "b"⟩ (.kcall (.var (.bound 0)) (.lit (1 : Nat))))
          (.lit (2 : Nat)))) :=
  ⟨by decide,
    c7_lowering_structural_alpha.2.2.2.2.2.2.2.2.1 _ _ (by decide)⟩

/-- Claim C8: in every `UCall(f, v, c)` and `KCall(f, v)` of every call the
kernel produces, the value argument `v` is syntactically a variable, a
literal, or a user lambda — never a nested call (the `UExpr` grammar of the
argument position has no call constructor). -/
theorem c8_atomic_arguments (e : Expr) (halt : KExpr) (c c' : Nat)
    (out : CCall) (h : t_k e halt c = some (out, c')) :
    atomicArgsC out = true :=
  atomicArgsC_true out

/-- Witness for C8 at a nested application translated from scratch. -/
theorem c8_atomic_arguments_witness :
    t_k (.app (.var (.free ⟨7, "g"⟩)) (.var (.free ⟨8, "b"⟩)))
        (.var (.free ⟨9, "h"⟩)) 10 =
      some (.kcall
        (mkKLam ⟨11, "f"⟩ (.kcall
          (mkKLam ⟨12, "e"⟩ (.ucall (.var (.free ⟨11, "f"⟩))
            (.var (.free ⟨12, "e"⟩))
            (mkKLam ⟨10, "rv"⟩ (.kcall (.var (.free ⟨9, "h"⟩))
              (.var (.free ⟨10, "rv"⟩))))))
          (.var (.free ⟨8, "b"⟩))))
        (.var (.free ⟨7, "g"⟩)), 13) ∧
    atomicArgsC (.kcall
        (mkKLam ⟨11, "f"⟩ (.kcall
          (mkKLam ⟨12, "e"⟩ (.ucall (.var (.free ⟨11, "f"⟩))
            (.var (.free ⟨12, "e"⟩))
            (mkKLam ⟨10, "rv"⟩ (.kcall (.var (.free ⟨9, "h"⟩))
              (.var (.free ⟨10, "rv"⟩))))))
          (.var (.free ⟨8, "b"⟩))))
        (.var (.free ⟨7, "g"⟩))) = true :=
  ⟨t_k_app_on_vars ⟨7, "g"⟩ ⟨8, "b"⟩ ⟨9, "h"⟩ 10,
    c8_atomic_arguments _ _ 10 13 _
      (t_k_app_on_vars ⟨7, "g"⟩ ⟨8, "b"⟩ ⟨9, "h"⟩ 10)⟩

/-- Claim C9: the translation terminates on every surface expression (`t_k`,
`t_c` and `m` are total functions defined by structural recursion on the
input, each source node visited once), and the output's node count is
bounded by a linear function of the input's: at most `sizeK k + 8 · sizeE e`,
each `App` contributing a constant number of CPS nodes. -/
theorem c9_termination_linear_size (e : Expr) (k : KExpr) (c : Nat) :
    ∃ out c', t_k e k c = some (out, c') ∧ c ≤ c' ∧
      sizeC out ≤ sizeK k + 8 * sizeE e := by
  obtain ⟨⟨out, c'⟩, h⟩ := Option.isSome_iff_exists.mp (t_k_isSome e k c)
  exact ⟨out, c', h, t_k_mono e k c out c' h,
    (kernel_size_aux (sizeE e) e le_rfl).2.1 k c out c' h⟩

/-- Claim C10: on every trivial surface expression (variable, literal or
lambda) and under every continuation expression whatsoever — including a
continuation literal or any variable — `t_k` succeeds and returns
`KCall(k, M(e))` with the given `k` embedded verbatim as the call's
function: the kernel performs no validation of the halt continuation. -/
theorem c10_trivial_embeds_halt_verbatim (e : Expr) (k : KExpr) (c : Nat)
    (h : isTrivial e = true) :
    ∃ u c', m e c = some (u, c') ∧ t_k e k c = some (.kcall k u, c') := by
  obtain ⟨⟨u, c'⟩, hu⟩ := Option.isSome_iff_exists.mp (m_isSome e h c)
  refine ⟨u, c', hu, ?_⟩
  rw [t_k_trivial e h, hu]
  simp

/-- Witness for C10: a literal translated against a continuation literal,
which a validating kernel would have to reject. -/
theorem c10_trivial_embeds_halt_verbatim_witness :
    isTrivial (Expr.lit (42 : Nat)) = true ∧
    ∃ u c', m (Expr.lit (42 : Nat)) 0 = some (u, c') ∧
      t_k (Expr.lit (42 : Nat)) (KExpr.lit (7 : Nat)) 0 =
        some (.kcall (KExpr.lit (7 : Nat)) u, c') :=
  ⟨by decide,
    c10_trivial_embeds_halt_verbatim (Expr.lit (42 : Nat))
      (KExpr.lit (7 : Nat)) 0 (by decide)⟩

end ContExpr

